import Mathlib

/-
Verification of the session-identity reconciliation core and the session log
reader of the claudecodeui repository.

The client side (src/src/App.jsx) is embedded as pure functions over an
explicit application state: React `useState` setters become record updates,
the browser localStorage key `placeholderSessions` becomes an association
list carried in the state, and the JavaScript `Set` of active session ids
becomes a duplicate-free list with JS-Set insertion semantics.

The server side (src/server/projects.js) is embedded as pure functions over
an explicit directory model: a directory is an optional list of files (the
`none` case models ENOENT), a file is a name, an mtime and a list of JSONL
lines, and a line is either a parse failure (raw text) or a parsed entry
record.  JavaScript timestamps (`new Date(x).getTime()`) are modelled as
integers, and `Array.prototype.sort`, which is stable in all hosts this code
runs on, is modelled by a stable insertion sort.
-/

set_option autoImplicit false

namespace ClaudeCodeUI

/-- Models JavaScript `String.prototype.startsWith` over character lists:
`isPrefixList p s` is true when `p` is a prefix of `s`. -/
def isPrefixList : List Char → List Char → Bool
  | [], _ => true
  | _ :: _, [] => false
  | a :: as, b :: bs => a = b && isPrefixList as bs

/-- Models JavaScript `String.prototype.endsWith` over character lists. -/
def isSuffixList (p s : List Char) : Bool :=
  isPrefixList p.reverse s.reverse

/-- JS `Set.prototype.add`: appends the element unless already present
(insertion order is preserved, as in a JavaScript Set). -/
def jsSetAdd (x : String) (s : List String) : List String :=
  if x ∈ s then s else s ++ [x]

/-- JS `Set.prototype.delete`: removes the element. -/
def jsSetDelete (x : String) (s : List String) : List String :=
  s.filter (fun y => y ≠ x)

/-- Lookup in an insertion-ordered association list (JS object / `Map.get`). -/
def amGet {β : Type} (k : String) : List (String × β) → Option β
  | [] => none
  | (k', v) :: r => if k' = k then some v else amGet k r

/-- Update in an insertion-ordered association list (JS object property
assignment / `Map.set`): overwrites in place, or appends a new binding. -/
def amSet {β : Type} (k : String) (v : β) : List (String × β) → List (String × β)
  | [] => [(k, v)]
  | (k', v') :: r => if k' = k then (k, v) :: r else (k', v') :: amSet k v r

/-- Key removal from an association list (JS `delete obj[k]` / `Map.delete`). -/
def amErase {β : Type} (k : String) (r : List (String × β)) : List (String × β) :=
  r.filter (fun p => p.1 ≠ k)

/-- Stable insertion of an element into a list sorted by the boolean
comparator `le`; the element goes before the first entry it compares
less-or-equal to, so ties keep their original relative order. -/
def insertBy {α : Type} (le : α → α → Bool) (x : α) : List α → List α
  | [] => [x]
  | y :: ys => if le x y then x :: y :: ys else y :: insertBy le x ys

/-- Stable sort by a boolean comparator; models `Array.prototype.sort`
(stable in every host this code targets). -/
def sortBy {α : Type} (le : α → α → Bool) : List α → List α
  | [] => []
  | x :: xs => insertBy le x (sortBy le xs)

/-- Decidable equality for `Except`, used to evaluate the error-reporting
functions on concrete inputs. -/
instance exceptDecEq {ε α : Type} [DecidableEq ε] [DecidableEq α] :
    DecidableEq (Except ε α) := fun a b =>
  match a, b with
  | Except.ok x, Except.ok y =>
    if h : x = y then Decidable.isTrue (by rw [h])
    else Decidable.isFalse (by intro hh; cases hh; exact h rfl)
  | Except.error x, Except.error y =>
    if h : x = y then Decidable.isTrue (by rw [h])
    else Decidable.isFalse (by intro hh; cases hh; exact h rfl)
  | Except.ok _, Except.error _ => Decidable.isFalse (by intro hh; cases hh)
  | Except.error _, Except.ok _ => Decidable.isFalse (by intro hh; cases hh)

namespace Client

/-- A session row as the client holds it (App.jsx session objects). -/
structure Session where
  id : String
  title : String
  summary : String
  created_at : String
  updated_at : String
  lastActivity : String
  isPlaceholder : Bool
  deriving DecidableEq

/-- A project row as the client holds it; `sessionMetaTotal` is
`project.sessionMeta.total`. -/
structure Project where
  name : String
  sessions : List Session
  sessionMetaTotal : Nat
  deriving DecidableEq

/-- A persisted placeholder record, one value of the localStorage map stored
under the `placeholderSessions` key (App.jsx `handleNewSession` writes it;
`addPlaceholderSessions` reads and prunes it). -/
structure PlaceholderRecord where
  title : String
  summary : String
  created_at : String
  updated_at : String
  lastActivity : String
  projectName : String
  createdAt : Int
  pendingConversion : Bool
  pendingConversionTime : Int
  deriving DecidableEq

/-- The slice of AppContent state that the reconciliation protocol touches:
the `projects`, `selectedProject`, `selectedSession` and `activeSessions`
React states, plus the persisted placeholder registry from localStorage. -/
structure AppState where
  projects : List Project
  selectedProject : Option Project
  selectedSession : Option Session
  activeSessions : List String
  placeholderRegistry : List (String × PlaceholderRecord)
  deriving DecidableEq

/-- App.jsx line 102: 24-hour age ceiling for placeholder records, in ms. -/
def maxPlaceholderAge : Int := 24 * 60 * 60 * 1000

/-- App.jsx line 104: 5-minute timeout for pending conversions, in ms. -/
def pendingConversionTimeoutMs : Int := 5 * 60 * 1000

/-- App.jsx lines 108-115: validity test of one stored placeholder record
(recent, owning project still exists, not pending conversion and the
pending conversion has not expired). -/
def isValidPlaceholder (now : Int) (projectNames : List String)
    (d : PlaceholderRecord) : Bool :=
  (decide (now - d.createdAt < maxPlaceholderAge)) &&
  (decide (d.projectName ∈ projectNames)) &&
  (!d.pendingConversion) &&
  (!(d.pendingConversion && decide (now - d.pendingConversionTime > pendingConversionTimeoutMs)))

/-- App.jsx line 140-148: the synthetic Session built from a stored
placeholder record. -/
def placeholderToSession (sid : String) (d : PlaceholderRecord) : Session :=
  { id := sid, title := d.title, summary := d.summary, created_at := d.created_at,
    updated_at := d.updated_at, lastActivity := d.lastActivity, isPlaceholder := true }

/-- App.jsx `addPlaceholderSessions` (lines 99-163): filters the persisted
placeholder registry down to valid records, writes the cleaned registry
back, and prepends each project's placeholder sessions to its session list
(bumping `sessionMeta.total`).  Returns the new project list and the
cleaned registry. -/
def addPlaceholderSessions (registry : List (String × PlaceholderRecord)) (now : Int)
    (ps : List Project) : List Project × List (String × PlaceholderRecord) :=
  let projectNames := ps.map (fun p => p.name)
  let validPlaceholders := registry.filter (fun kv => isValidPlaceholder now projectNames kv.2)
  let ps' := ps.map (fun project =>
    let projectPlaceholders :=
      (validPlaceholders.filter (fun kv => kv.2.projectName == project.name)).map
        (fun kv => placeholderToSession kv.1 kv.2)
    if projectPlaceholders.length > 0 then
      { project with
          sessions := projectPlaceholders ++ project.sessions
          sessionMetaTotal := project.sessionMetaTotal + projectPlaceholders.length }
    else project)
  (ps', validPlaceholders)

/-- App.jsx `isUpdateAdditive` (lines 183-225), translated clause by clause.
The placeholder special case sits, as in the source, after the
selected-project lookups (which return false early when either fails) and
before the selected-session null checks. -/
def isUpdateAdditive (currentProjects updatedProjects : List Project)
    (selectedProject : Option Project) (selectedSession : Option Session) : Bool :=
  match selectedProject, selectedSession with
  | none, _ => true
  | some _, none => true
  | some sp, some ss =>
    match currentProjects.find? (fun p => p.name == sp.name),
          updatedProjects.find? (fun p => p.name == sp.name) with
    | some csp, some usp =>
      if ss.isPlaceholder || isPrefixList "temp-".data ss.id.data then true
      else
        match csp.sessions.find? (fun s => s.id == ss.id),
              usp.sessions.find? (fun s => s.id == ss.id) with
        | some cs, some us =>
          (cs.id == us.id) && (cs.title == us.title) &&
          (cs.created_at == us.created_at) && (cs.updated_at == us.updated_at)
        | _, _ => false
    | _, _ => false

/-- App.jsx `projects_updated` WebSocket handler (lines 243-314): computes
`hasActiveSession`, suppresses the snapshot when the additive check fails,
and otherwise applies it (with placeholder sessions re-added) and refreshes
the selected project and session.  Per-message deduplication by message id
is outside this per-snapshot model. -/
def projectsUpdated (st : AppState) (snapshot : List Project) (now : Int) : AppState :=
  let hasActiveSession : Bool :=
    (match st.selectedSession with
     | some s => decide (s.id ∈ st.activeSessions)
     | none => false) ||
    (!st.activeSessions.isEmpty &&
      st.activeSessions.any (fun i => isPrefixList "new-session-".data i.data))
  if hasActiveSession &&
      !isUpdateAdditive st.projects snapshot st.selectedProject st.selectedSession then
    st
  else
    let withPh := (addPlaceholderSessions st.placeholderRegistry now snapshot).1
    let registry' := (addPlaceholderSessions st.placeholderRegistry now snapshot).2
    let st1 := { st with projects := withPh, placeholderRegistry := registry' }
    match st.selectedProject with
    | none => st1
    | some sp =>
      match withPh.find? (fun p => p.name == sp.name) with
      | none => st1
      | some usp =>
        if usp = sp then st1
        else
          let st2 := { st1 with selectedProject := some usp }
          match st.selectedSession with
          | none => st2
          | some ss =>
            match usp.sessions.find? (fun s => s.id == ss.id) with
            | some _ => st2
            | none => { st2 with selectedSession := none }

/-- App.jsx `markSessionAsActive` (lines 591-595); the truthiness guard on
the id becomes a non-emptiness test. -/
def markSessionAsActive (sessionId : String) (st : AppState) : AppState :=
  if sessionId ≠ "" then
    { st with activeSessions := jsSetAdd sessionId st.activeSessions }
  else st

/-- App.jsx `markSessionAsInactive` (lines 598-606). -/
def markSessionAsInactive (sessionId : String) (st : AppState) : AppState :=
  if sessionId ≠ "" then
    { st with activeSessions := jsSetDelete sessionId st.activeSessions }
  else st

/-- App.jsx `handleNewSession` (lines 441-498): mints the placeholder
session object, persists its record to the registry, inserts it at the head
of the owning project's session list, selects project and session, and
marks the placeholder active.  The generated id and the two clock reads are
parameters. -/
def handleNewSession (pid : String) (nowIso : String) (nowMs : Int)
    (project : Project) (st : AppState) : AppState :=
  let placeholderSession : Session :=
    { id := pid, title := "New Conversation", summary := "New Conversation",
      created_at := nowIso, updated_at := nowIso, lastActivity := nowIso,
      isPlaceholder := true }
  let record : PlaceholderRecord :=
    { title := placeholderSession.title, summary := placeholderSession.summary,
      created_at := nowIso, updated_at := nowIso, lastActivity := nowIso,
      projectName := project.name, createdAt := nowMs,
      pendingConversion := false, pendingConversionTime := 0 }
  let updatedProject : Project :=
    { project with
        sessions := placeholderSession :: project.sessions
        sessionMetaTotal := project.sessionMetaTotal + 1 }
  let st1 : AppState :=
    { st with
      placeholderRegistry := amSet pid record st.placeholderRegistry,
      projects := st.projects.map (fun p => if p.name == project.name then updatedProject else p),
      selectedProject := some updatedProject,
      selectedSession := some placeholderSession }
  markSessionAsActive pid st1

/-- App.jsx lines 671-677: one session object under placeholder
substitution. -/
def replaceSessionId (realId placeholderId : String) (s : Session) : Session :=
  if s.id == placeholderId then { s with id := realId, isPlaceholder := false } else s

/-- App.jsx lines 666-682: one project under placeholder substitution (only
projects that actually hold the placeholder are rebuilt). -/
def replaceInProject (realId placeholderId : String) (p : Project) : Project :=
  if p.sessions.any (fun s => s.id == placeholderId) then
    { p with sessions := p.sessions.map (replaceSessionId realId placeholderId) }
  else p

/-- App.jsx `replacePlaceholderSession` (lines 628-704): removes the
placeholder record from the registry, swaps the placeholder for the real id
in the protection set, rewrites the selected session in place, and replaces
the placeholder session with the real one in the project list and the
selected project. -/
def replacePlaceholderSession (realSessionId placeholderSessionId : String)
    (st : AppState) : AppState :=
  if realSessionId ≠ "" ∧ placeholderSessionId ≠ "" then
    { st with
      placeholderRegistry := amErase placeholderSessionId st.placeholderRegistry,
      activeSessions :=
        jsSetAdd realSessionId (jsSetDelete placeholderSessionId st.activeSessions),
      selectedSession :=
        match st.selectedSession with
        | some ss => some (replaceSessionId realSessionId placeholderSessionId ss)
        | none => none,
      projects := st.projects.map (replaceInProject realSessionId placeholderSessionId),
      selectedProject :=
        match st.selectedProject with
        | some sp => some (replaceInProject realSessionId placeholderSessionId sp)
        | none => none }
  else st

end Client

namespace Server

/-- One successfully parsed JSONL log line, restricted to the fields the
server code reads: `sessionId`, `type`, `summary`, the content of a user
message when it is a non-empty string (`message.role === 'user' &&
typeof message.content === 'string'`), `timestamp` (as epoch ms, the value
of `new Date(entry.timestamp).getTime()`), `cwd`, and an opaque payload
standing for the remaining fields of the JSON object. -/
structure LogEntry where
  sessionId : Option String
  entryType : Option String
  summaryField : Option String
  userContent : Option String
  timestamp : Option Int
  cwd : Option String
  payload : String
  deriving DecidableEq

/-- One physical line of a JSONL file: either raw text on which
`JSON.parse` throws, or a parsed entry. -/
inductive JsonLine where
  | malformed (raw : String)
  | parsed (e : LogEntry)
  deriving DecidableEq

/-- One file of a project's log directory. -/
structure JsonlFile where
  name : String
  mtime : Int
  lines : List JsonLine
  deriving DecidableEq

/-- projects.js line 604 etc.: the log-reader functions only look at files
whose name ends in `.jsonl`. -/
def isJsonlName (n : String) : Bool := isSuffixList ".jsonl".data n.data

/-- The session record built by `parseJsonlSessions` (projects.js lines
688-694): id, summary, message count, last activity (epoch ms) and cwd. -/
structure SessionInfo where
  id : String
  summary : String
  messageCount : Nat
  lastActivity : Int
  cwd : String
  deriving DecidableEq

/-- projects.js lines 706-708: truncate a summary source to 50 characters
plus an ellipsis. -/
def truncate50 (content : String) : String :=
  if content.length > 50 then String.mk (content.data.take 50) ++ "..." else content

/-- projects.js lines 686-719: effect of one parsed entry on the per-file
session map (a `Map` keyed by session id, modelled as an insertion-ordered
association list).  `now` is the `new Date()` default used for
`lastActivity` when an entry carries no timestamp. -/
def applyEntry (now : Int) (e : LogEntry) (m : List (String × SessionInfo)) :
    List (String × SessionInfo) :=
  match e.sessionId with
  | none => m
  | some sid =>
    let m1 := if (amGet sid m).isSome then m
      else amSet sid { id := sid, summary := "New Session", messageCount := 0,
                       lastActivity := now, cwd := e.cwd.getD "" } m
    match amGet sid m1 with
    | none => m1
    | some s =>
      let s1 :=
        if (e.entryType == some "summary") &&
            (match e.summaryField with | some t => t ≠ "" | none => false) then
          { s with summary := e.summaryField.getD "" }
        else if (match e.userContent with | some c => c ≠ "" | none => false) &&
            (s.summary == "New Session") &&
            !(isPrefixList "<command-name>".data (e.userContent.getD "").data) then
          { s with summary := truncate50 (e.userContent.getD "") }
        else s
      let s2 := { s1 with messageCount := s1.messageCount + 1 }
      let s3 := match e.timestamp with
        | some t => { s2 with lastActivity := t }
        | none => s2
      amSet sid s3 m1

/-- projects.js `parseJsonlSessions` (lines 667-736): folds the file's
lines into a session map (malformed lines are skipped) and returns the
values sorted by last activity descending. -/
def parseJsonlSessions (now : Int) (lines : List JsonLine) : List SessionInfo :=
  let m := lines.foldl (fun m l =>
    match l with
    | JsonLine.parsed e => applyEntry now e m
    | JsonLine.malformed _ => m) []
  sortBy (fun a b => decide (b.lastActivity ≤ a.lastActivity)) (m.map Prod.snd)

/-- The value of `getSessions`: a page of sessions plus paging metadata. -/
structure SessionsPage where
  sessions : List SessionInfo
  hasMore : Bool
  total : Nat
  deriving DecidableEq

/-- projects.js lines 610-620: the project's `.jsonl` files sorted by
modification time, newest first (the JS sort is stable). -/
def sortFilesByMtime (files : List JsonlFile) : List JsonlFile :=
  sortBy (fun a b => decide (b.mtime ≤ a.mtime)) (files.filter (fun f => isJsonlName f.name))

/-- projects.js lines 628-635: merge one file's parsed sessions into the
accumulated map, skipping ids that are already present (first occurrence
wins). -/
def mergeParsed (parsed : List SessionInfo) (acc : List (String × SessionInfo)) :
    List (String × SessionInfo) :=
  parsed.foldl (fun a s => if (amGet s.id a).isSome then a else amSet s.id s a) acc

/-- projects.js lines 622-643: the file loop of `getSessions`, including
the early-exit optimization (stop once twice the requested page is
collected and at least `min 3 totalFiles` files were processed). -/
def mergeSessionsLoop (now : Int) (limit offset totalFiles : Nat) :
    List JsonlFile → List (String × SessionInfo) → Nat → List (String × SessionInfo)
  | [], acc, _ => acc
  | f :: rest, acc, processedCount =>
    let acc1 := mergeParsed (parseJsonlSessions now f.lines) acc
    let pc := processedCount + 1
    if acc1.length ≥ (limit + offset) * 2 ∧ pc ≥ min 3 totalFiles then acc1
    else mergeSessionsLoop now limit offset totalFiles rest acc1 pc

/-- projects.js `getSessions` (lines 590-665): `dir = none` models a
missing project directory (ENOENT), which yields an empty result rather
than an error.  Otherwise the `.jsonl` files are scanned newest-first with
per-id deduplication, sorted by last activity descending, and paged with
`slice(offset, offset + limit)`. -/
def getSessions (now : Int) (dir : Option (List JsonlFile)) (limit offset : Nat) :
    SessionsPage :=
  match dir with
  | none => { sessions := [], hasMore := false, total := 0 }
  | some files =>
    if (files.filter (fun f => isJsonlName f.name)).isEmpty then
      { sessions := [], hasMore := false, total := 0 }
    else
      let sorted := sortFilesByMtime files
      let merged := mergeSessionsLoop now limit offset sorted.length sorted [] 0
      let sortedSessions :=
        sortBy (fun a b => decide (b.lastActivity ≤ a.lastActivity)) (merged.map Prod.snd)
      let total := sortedSessions.length
      { sessions := (sortedSessions.drop offset).take limit
        hasMore := decide (offset + limit < total)
        total := total }

/-- projects.js lines 759-780: the session-matching entries of the
project's `.jsonl` files, in file order then line order. -/
def sessionEntriesOf (sessionId : String) (files : List JsonlFile) : List LogEntry :=
  ((files.filter (fun f => isJsonlName f.name)).map (fun f => f.lines)).flatten.filterMap
    (fun l =>
      match l with
      | JsonLine.parsed e => if e.sessionId == some sessionId then some e else none
      | JsonLine.malformed _ => none)

/-- projects.js `getSessionMessages` (lines 739-801): placeholder
identities (prefix `temp-`) and a missing project directory both yield an
empty list; otherwise all matching entries across all `.jsonl` files,
sorted by timestamp ascending (`new Date(a.timestamp || 0)`). -/
def getSessionMessages (sessionId : String) (dir : Option (List JsonlFile)) :
    List LogEntry :=
  if isPrefixList "temp-".data sessionId.data then []
  else
    match dir with
    | none => []
    | some files =>
      if (files.filter (fun f => isJsonlName f.name)).isEmpty then []
      else
        sortBy (fun a b => decide (a.timestamp.getD 0 ≤ b.timestamp.getD 0))
          (sessionEntriesOf sessionId files)

/-- projects.js lines 856-863: whether one line is a well-formed entry of
the given session. -/
def lineMatches (sessionId : String) (l : JsonLine) : Bool :=
  match l with
  | JsonLine.parsed e => e.sessionId == some sessionId
  | JsonLine.malformed _ => false

/-- projects.js lines 856-863: whether a file contains the session. -/
def fileHasSession (sessionId : String) (f : JsonlFile) : Bool :=
  f.lines.any (lineMatches sessionId)

/-- projects.js lines 850-881: the file loop of `deleteSession` — the first
`.jsonl` file containing the session is rewritten with that session's
well-formed lines filtered out; every other file is left untouched.
Returns `none` when no file contains the session. -/
def deleteSessionScan (sessionId : String) : List JsonlFile → Option (List JsonlFile)
  | [] => none
  | f :: rest =>
    if isJsonlName f.name && fileHasSession sessionId f then
      some ({ f with lines := f.lines.filter (fun l => !lineMatches sessionId l) } :: rest)
    else
      match deleteSessionScan sessionId rest with
      | some rest' => some (f :: rest')
      | none => none

/-- projects.js `deleteSession` (lines 830-892): placeholder identities
succeed without touching disk; a missing directory or an absent session is
an error; otherwise the first containing file is rewritten. -/
def deleteSession (sessionId : String) (dir : Option (List JsonlFile)) :
    Except String (Option (List JsonlFile)) :=
  if isPrefixList "temp-".data sessionId.data then Except.ok dir
  else
    match dir with
    | none => Except.error "project directory does not exist"
    | some files =>
      if (files.filter (fun f => isJsonlName f.name)).isEmpty then
        Except.error "no session files exist"
      else
        match deleteSessionScan sessionId files with
        | some files' => Except.ok (some files')
        | none => Except.error "session not found in any files"

/-- JavaScript `\s` for the characters that can occur here: space, tab,
carriage return, line feed. -/
def isJsWhitespace (c : Char) : Bool :=
  c = ' ' || c = '\t' || c = '\n' || c = '\r'

/-- projects.js line 1002, first replace: every `/` becomes `-`. -/
def replaceSlashes (l : List Char) : List Char :=
  l.map (fun c => if c = '/' then '-' else c)

/-- projects.js line 1002, second replace (`/\s+/g` to `-`): each maximal
whitespace run becomes a single hyphen.  The boolean argument records
whether the previous character was whitespace. -/
def collapseWhitespace : Bool → List Char → List Char
  | _, [] => []
  | prevWs, c :: rest =>
    if isJsWhitespace c then
      if prevWs then collapseWhitespace true rest
      else '-' :: collapseWhitespace true rest
    else c :: collapseWhitespace false rest

/-- projects.js `addProjectManually` lines 998-1004: the project-name
encoding of an absolute path — strip the leading slash, turn slashes and
whitespace runs into hyphens, prepend a hyphen. -/
def encodeProjectName (absolutePath : List Char) : List Char :=
  let p1 := match absolutePath with
    | '/' :: rest => rest
    | l => l
  '-' :: collapseWhitespace false (replaceSlashes p1)

/-- JavaScript `String.prototype.split` with a one-character separator:
always returns at least one (possibly empty) segment. -/
def splitOnChar (sep : Char) : List Char → List (List Char)
  | [] => [[]]
  | c :: rest =>
    let r := splitOnChar sep rest
    if c = sep then [] :: r
    else
      match r with
      | [] => [[c]]
      | h :: t => (c :: h) :: t

/-- projects.js lines 99, 105-107: a multi-letter segment whose first
character is an ASCII capital. -/
def isCapSeg (s : List Char) : Bool :=
  match s with
  | c :: _ :: _ => 'A' ≤ c && c ≤ 'Z'
  | _ => false

/-- projects.js lines 135-137: a multi-letter segment whose first
character is an ASCII lowercase letter. -/
def isLowSeg (s : List Char) : Bool :=
  match s with
  | c :: _ :: _ => 'a' ≤ c && c ≤ 'z'
  | _ => false

/-- Join character-list segments with a separator character. -/
def joinWithChar (sep : Char) : List (List Char) → List Char
  | [] => []
  | [s] => s
  | s :: rest => s ++ sep :: joinWithChar sep rest

/-- projects.js lines 116-131: rebuild a capitalized group — a single word
stands alone, two words join with a space, and for three or more words all
but the last two stand alone while the last two join with a space. -/
def capGroupOut (caps : List (List Char)) : List (List Char) :=
  match caps with
  | [] => []
  | [s] => [s]
  | [s, t] => [s ++ ' ' :: t]
  | s :: rest => s :: capGroupOut rest

/-- projects.js lines 87-146: the segment-grouping loop of
`smartDecodeProjectName`.  The fuel argument bounds the recursion (each
step consumes at least one segment, so `segs.length` fuel always
suffices); it exists only to make the recursion structural. -/
def decodeGroups : Nat → List (List Char) → List (List Char)
  | 0, _ => []
  | _, [] => []
  | fuel + 1, s :: rest =>
    if s.length = 1 then s :: decodeGroups fuel rest
    else if isCapSeg s then
      let caps := s :: rest.takeWhile isCapSeg
      capGroupOut caps ++ decodeGroups fuel (rest.dropWhile isCapSeg)
    else
      let lows := rest.takeWhile isLowSeg
      joinWithChar '-' (s :: lows) :: decodeGroups fuel (rest.drop lows.length)

/-- projects.js `smartDecodeProjectName` (lines 68-153): strip the leading
hyphen, split on hyphens, group the segments, and join the groups with
slashes under a leading slash. -/
def smartDecodeProjectName (projectName : List Char) : List Char :=
  let workingName := match projectName with
    | '-' :: rest => rest
    | l => l
  let segments := splitOnChar '-' workingName
  '/' :: joinWithChar '/' (decodeGroups segments.length segments)

/-- The running accumulator of the cwd scan in `extractProjectDirectory`
(projects.js lines 172-174, 206-227): occurrence counts per cwd in
first-seen order, and the cwd of the entry with the strictly largest
timestamp seen so far. -/
structure CwdScan where
  counts : List (String × Nat)
  latestTimestamp : Int
  latestCwd : Option String
  deriving DecidableEq

/-- projects.js lines 211-221: effect of one parsed entry on the cwd scan. -/
def scanCwdEntry (st : CwdScan) (e : LogEntry) : CwdScan :=
  match e.cwd with
  | none => st
  | some c =>
    let counts := amSet c ((amGet c st.counts).getD 0 + 1) st.counts
    let ts := e.timestamp.getD 0
    if st.latestTimestamp < ts then
      { counts := counts, latestTimestamp := ts, latestCwd := some c }
    else { st with counts := counts }

/-- One line of the cwd scan: malformed lines are skipped. -/
def scanStep (st : CwdScan) (l : JsonLine) : CwdScan :=
  match l with
  | JsonLine.parsed e => scanCwdEntry st e
  | JsonLine.malformed _ => st

/-- The cwd scan over all lines of all `.jsonl` files of the project, in
directory order (projects.js lines 198-227). -/
def scanCwd (files : List JsonlFile) : CwdScan :=
  (((files.filter (fun f => isJsonlName f.name)).map (fun f => f.lines)).flatten).foldl
    scanStep ⟨[], 0, none⟩

/-- Largest value of a list of naturals (0 when empty); models
`Math.max(...cwdCounts.values())` on a non-empty map. -/
def listMax : List Nat → Nat
  | [] => 0
  | n :: rest => max n (listMax rest)

/-- projects.js lines 246-251: the first cwd, in map insertion order,
whose count equals the maximum. -/
def firstWithCount (target : Nat) : List (String × Nat) → Option String
  | [] => none
  | (c, n) :: rest => if n = target then some c else firstWithCount target rest

/-- projects.js lines 229-258: choose the extracted path from a finished
cwd scan.  The 25% test `mostRecentCount >= maxCount * 0.25` is the exact
integer comparison `4 * mostRecentCount ≥ maxCount` (0.25 is a dyadic
float, so the JS comparison is exact). -/
def selectCwd (projectName : String) (scan : CwdScan) : String :=
  match scan.counts with
  | [] => String.mk (smartDecodeProjectName projectName.data)
  | [(c, _)] => c
  | _ =>
    let mostRecentCount :=
      match scan.latestCwd with
      | some c => (amGet c scan.counts).getD 0
      | none => 0
    let maxCount := listMax (scan.counts.map Prod.snd)
    let chosen : Option String :=
      if 4 * mostRecentCount ≥ maxCount then scan.latestCwd
      else firstWithCount maxCount scan.counts
    match chosen with
    | some c => c
    | none =>
      match scan.latestCwd with
      | some c => c
      | none => String.mk (smartDecodeProjectName projectName.data)

/-- projects.js `extractProjectDirectory` (lines 156-276), with the
in-process cache dropped (it is transparent to the value computed): the
configured original path wins; a missing directory or an absence of
`.jsonl` files falls back to the decoded project name; otherwise the cwd
scan decides. -/
def extractProjectDirectory (projectName : String) (configOriginalPath : Option String)
    (dir : Option (List JsonlFile)) : String :=
  match configOriginalPath with
  | some p => p
  | none =>
    match dir with
    | none => String.mk (smartDecodeProjectName projectName.data)
    | some files =>
      if (files.filter (fun f => isJsonlName f.name)).isEmpty then
        String.mk (smartDecodeProjectName projectName.data)
      else selectCwd projectName (scanCwd files)

/-- The cwd values observed in a list of log lines, in order. -/
def obsOf (lines : List JsonLine) : List String :=
  lines.filterMap (fun l =>
    match l with
    | JsonLine.parsed e => e.cwd
    | JsonLine.malformed _ => none)

/-- The observed cwd values of a project's log entries, in scan order. -/
def observedCwds (files : List JsonlFile) : List String :=
  obsOf (((files.filter (fun f => isJsonlName f.name)).map (fun f => f.lines)).flatten)

/-- Helper of `distinctFirst`: drop elements already seen. -/
def distinctFirstAux (seen : List String) : List String → List String
  | [] => []
  | x :: rest =>
    if x ∈ seen then distinctFirstAux seen rest
    else x :: distinctFirstAux (x :: seen) rest

/-- The distinct elements of a list in first-occurrence order (the key
order of a JS Map built by insertion). -/
def distinctFirst (l : List String) : List String := distinctFirstAux [] l

/-- Modelled from the spec: the claimed selection rule of C7, with the
25% threshold read as 25% of all observed cwd occurrences (the spec's
words: the most recent cwd wins if it accounts for at least 25% of
observed occurrences, else the most frequent cwd wins). -/
def specSelectCwd (latest : Option String) (observed : List String) : Option String :=
  let totalCount := observed.length
  let latestCount := match latest with
    | some c => observed.count c
    | none => 0
  if 4 * latestCount ≥ totalCount then latest
  else firstWithCount (listMax ((distinctFirst observed).map (fun c => observed.count c)))
    (((distinctFirst observed).map (fun c => (c, observed.count c))))

/-- One entry of `~/.claude/project-config.json`. -/
structure ProjectConfig where
  displayName : Option String
  manuallyAdded : Bool
  originalPath : Option String
  deriving DecidableEq

/-- A project record as built by `getProjects` (projects.js lines
304-312). -/
structure ServerProject where
  name : String
  pathField : String
  displayName : String
  fullPath : String
  isCustomName : Bool
  isManuallyAdded : Bool
  sessions : List SessionInfo
  sessionMetaTotal : Nat
  sessionMetaHasMore : Bool
  deriving DecidableEq

/-- projects.js lines 333-335 and 371-373: deduplicate a session list by
id, keeping the first occurrence
(`index === self.findIndex(s => s.id === session.id)`). -/
def dedupByIdAux (seen : List String) : List SessionInfo → List SessionInfo
  | [] => []
  | s :: rest =>
    if s.id ∈ seen then dedupByIdAux seen rest
    else s :: dedupByIdAux (s.id :: seen) rest

/-- Session deduplication by id, first occurrence wins. -/
def dedupById (l : List SessionInfo) : List SessionInfo := dedupByIdAux [] l

/-- Remove the first project with the given name
(`projects.findIndex` + `splice`, projects.js lines 350-353). -/
def removeFirstByName (n : String) : List ServerProject → List ServerProject
  | [] => []
  | p :: rest => if p.name = n then rest else p :: removeFirstByName n rest

/-- Replace the project with the given name (the source mutates the shared
object, which is visible through the projects array). -/
def replaceByName (n : String) (p' : ServerProject) : List ServerProject → List ServerProject
  | [] => []
  | p :: rest => if p.name = n then p' :: rest else p :: replaceByName n p' rest

/-- The accumulated state of the `getProjects` loops: the output list and
the `duplicateDetection` map keyed by fullPath. -/
structure ProjectsAcc where
  projects : List ServerProject
  dedup : List (String × ServerProject)

/-- The environment `getProjects` runs against: `resolve` stands for
`extractProjectDirectory` of a project name (it reads that project's own
log directory, modelled separately as `extractProjectDirectory` above),
`sessOf` for `getSessions` of a project name, and `autoName` for
`generateDisplayName` (which reads the target directory's package.json). -/
structure ProjectsEnv where
  resolve : String → String
  sessOf : String → SessionsPage
  autoName : String → String → String

/-- projects.js lines 314-412: duplicate handling for one candidate
project against the `duplicateDetection` map — prefer manually added over
auto-discovered (merging sessions of both), skip an auto-discovered
duplicate of a manual project, and merge a same-kind duplicate into the
first-seen project. -/
def addWithDedup (env : ProjectsEnv) (acc : ProjectsAcc) (project : ServerProject)
    (loadOwnSessions : Bool) : ProjectsAcc :=
  match amGet project.fullPath acc.dedup with
  | some existing =>
    if project.isManuallyAdded && !existing.isManuallyAdded then
      let allSessions := (env.sessOf existing.name).sessions ++ (env.sessOf project.name).sessions
      let uniqueSessions := dedupById allSessions
      let project1 := { project with
        sessions := uniqueSessions
        sessionMetaTotal := uniqueSessions.length
        sessionMetaHasMore := false }
      { projects := removeFirstByName existing.name acc.projects ++ [project1]
        dedup := amSet project.fullPath project1 acc.dedup }
    else if !project.isManuallyAdded && existing.isManuallyAdded then
      acc
    else
      let uniqueSessions := dedupById (existing.sessions ++ (env.sessOf project.name).sessions)
      let existing1 := { existing with
        sessions := uniqueSessions
        sessionMetaTotal := uniqueSessions.length
        sessionMetaHasMore := false }
      { projects := replaceByName existing.name existing1 acc.projects
        dedup := amSet project.fullPath existing1 acc.dedup }
  | none =>
    let project1 :=
      if loadOwnSessions then
        { project with
          sessions := (env.sessOf project.name).sessions
          sessionMetaTotal := (env.sessOf project.name).total
          sessionMetaHasMore := false }
      else project
    { projects := acc.projects ++ [project1]
      dedup := amSet project.fullPath project1 acc.dedup }

/-- projects.js lines 291-414: the first loop of `getProjects`, over the
directories found under `~/.claude/projects`. -/
def getProjectsScanLoop (env : ProjectsEnv) (config : List (String × ProjectConfig)) :
    List String → ProjectsAcc → ProjectsAcc
  | [], acc => acc
  | entry :: rest, acc =>
    let actualProjectDir := env.resolve entry
    let cfg := amGet entry config
    let customName := cfg.bind (fun c => c.displayName)
    let project : ServerProject :=
      { name := entry
        pathField := actualProjectDir
        displayName := customName.getD (env.autoName entry actualProjectDir)
        fullPath := actualProjectDir
        isCustomName := customName.isSome
        isManuallyAdded := (cfg.map (fun c => c.manuallyAdded)).getD false
        sessions := []
        sessionMetaTotal := 0
        sessionMetaHasMore := false }
    getProjectsScanLoop env config rest (addWithDedup env acc project true)

/-- projects.js lines 424-560: the second loop of `getProjects`, adding
manually configured projects whose directory does not exist, with the same
duplicate handling. -/
def getProjectsConfigLoop (env : ProjectsEnv) (dirEntries : List String) :
    List (String × ProjectConfig) → ProjectsAcc → ProjectsAcc
  | [], acc => acc
  | (projectName, projectConfig) :: rest, acc =>
    if projectName ∉ dirEntries ∧ projectConfig.manuallyAdded then
      let actualProjectDir := projectConfig.originalPath.getD (env.resolve projectName)
      let project : ServerProject :=
        { name := projectName
          pathField := actualProjectDir
          displayName := projectConfig.displayName.getD (env.autoName projectName actualProjectDir)
          fullPath := actualProjectDir
          isCustomName := projectConfig.displayName.isSome
          isManuallyAdded := true
          sessions := []
          sessionMetaTotal := 0
          sessionMetaHasMore := false }
      getProjectsConfigLoop env dirEntries rest (addWithDedup env acc project true)
    else getProjectsConfigLoop env dirEntries rest acc

/-- projects.js lines 562-585: the final safeguard loop — any manually
added config project whose name is absent from the output list is appended
unconditionally, bypassing duplicate detection. -/
def getProjectsSafeguardLoop (env : ProjectsEnv) :
    List (String × ProjectConfig) → List ServerProject → List ServerProject
  | [], projects => projects
  | (projectName, projectConfig) :: rest, projects =>
    if projectConfig.manuallyAdded ∧ ¬ projects.any (fun p => p.name == projectName) then
      let actualProjectDir :=
        projectConfig.originalPath.getD (String.mk (smartDecodeProjectName projectName.data))
      let project : ServerProject :=
        { name := projectName
          pathField := actualProjectDir
          displayName := projectConfig.displayName.getD (env.autoName projectName actualProjectDir)
          fullPath := actualProjectDir
          isCustomName := projectConfig.displayName.isSome
          isManuallyAdded := true
          sessions := []
          sessionMetaTotal := 0
          sessionMetaHasMore := false }
      getProjectsSafeguardLoop env rest (projects ++ [project])
    else getProjectsSafeguardLoop env rest projects

/-- projects.js `getProjects` (lines 278-588): directory scan with
duplicate detection, then manually configured projects with the same
duplicate handling, then the safeguard loop.  The empty-directory cleanup
(line 420) only touches the filesystem, not the returned list. -/
def getProjects (env : ProjectsEnv) (dirEntries : List String)
    (config : List (String × ProjectConfig)) : List ServerProject :=
  let acc1 := getProjectsScanLoop env config dirEntries ⟨[], []⟩
  let acc2 := getProjectsConfigLoop env dirEntries config acc1
  getProjectsSafeguardLoop env config acc2.projects

end Server

namespace Fixtures

open Client Server

/-- A concrete placeholder session used in witnesses. -/
def phSession : Session :=
  { id := "temp-1", title := "New Conversation", summary := "New Conversation",
    created_at := "t0", updated_at := "t0", lastActivity := "t0", isPlaceholder := true }

/-- A concrete real selected session. -/
def realSession : Session :=
  { id := "s1", title := "old title", summary := "old", created_at := "c0",
    updated_at := "u0", lastActivity := "l0", isPlaceholder := false }

/-- A concrete project holding the real session. -/
def realProject : Project :=
  { name := "demo", sessions := [realSession], sessionMetaTotal := 1 }

/-- A concrete project holding the placeholder session. -/
def phProject : Project :=
  { name := "demo", sessions := [phSession], sessionMetaTotal := 1 }

/-- A state in which the real session is selected but only a
`new-session-` marker is protected. -/
def markerState : AppState :=
  { projects := [realProject], selectedProject := some realProject,
    selectedSession := some realSession, activeSessions := ["new-session-1"],
    placeholderRegistry := [] }

/-- A state in which the real session is selected and protected. -/
def protectedState : AppState :=
  { projects := [realProject], selectedProject := some realProject,
    selectedSession := some realSession, activeSessions := ["s1"],
    placeholderRegistry := [] }

/-- A state in which the real session is selected and nothing is
protected. -/
def idleState : AppState :=
  { projects := [realProject], selectedProject := some realProject,
    selectedSession := some realSession, activeSessions := [],
    placeholderRegistry := [] }

/-- A snapshot in which the selected session's title changed. -/
def retitledSnapshot : List Project :=
  [{ name := "demo", sessions := [{ realSession with title := "new title" }],
     sessionMetaTotal := 1 }]

/-- An empty starting state. -/
def emptyState : AppState :=
  { projects := [], selectedProject := none, selectedSession := none,
    activeSessions := [], placeholderRegistry := [] }

/-- A start state for the C1 witness: one project, nothing selected. -/
def startState : AppState :=
  { projects := [{ name := "demo", sessions := [], sessionMetaTotal := 0 }],
    selectedProject := none, selectedSession := none,
    activeSessions := [], placeholderRegistry := [] }

/-- A placeholder record as persisted by `handleNewSession`. -/
def phRecord : PlaceholderRecord :=
  { title := "New Conversation", summary := "New Conversation", created_at := "t0",
    updated_at := "t0", lastActivity := "t0", projectName := "demo", createdAt := 0,
    pendingConversion := false, pendingConversionTime := 0 }

/-- A state holding the placeholder session, selected and protected, with
its persisted record — the state right after `startNewConversation` and
`sendMessage`. -/
def phAppState : AppState :=
  { projects := [phProject], selectedProject := some phProject,
    selectedSession := some phSession, activeSessions := ["temp-1"],
    placeholderRegistry := [("temp-1", phRecord)] }

/-- The environment for the duplicate-project evaluation: no sessions on
disk, display names taken from the path. -/
def bugEnv : ProjectsEnv :=
  { resolve := fun _ => ""
    sessOf := fun _ => { sessions := [], hasMore := false, total := 0 }
    autoName := fun _ d => d }

/-- Two manually added config entries registering the same original path
under different encoded names. -/
def bugConfig : List (String × ProjectConfig) :=
  [("-x-a", { displayName := none, manuallyAdded := true, originalPath := some "/x" }),
   ("-x-b", { displayName := none, manuallyAdded := true, originalPath := some "/x" })]

/-- One parsed log line carrying only a cwd and a timestamp. -/
def cwdLine (c : String) (t : Int) : JsonLine :=
  JsonLine.parsed { sessionId := none, entryType := none, summaryField := none,
                    userContent := none, timestamp := some t, cwd := some c, payload := "" }

/-- A log file whose cwd history is four entries in `/a` followed by one
most-recent entry in `/b`. -/
def cwdFile : JsonlFile :=
  { name := "w.jsonl", mtime := 0,
    lines := [cwdLine "/a" 1, cwdLine "/a" 2, cwdLine "/a" 3, cwdLine "/a" 4, cwdLine "/b" 5] }

/-- One parsed log line of session `s1` with the given timestamp. -/
def sessLine (sid : String) (t : Int) : JsonLine :=
  JsonLine.parsed { sessionId := some sid, entryType := none, summaryField := none,
                    userContent := none, timestamp := some t, cwd := none, payload := "m" }

/-- A log file holding one entry of session `s1`. -/
def oneSessionFile : JsonlFile :=
  { name := "a.jsonl", mtime := 10, lines := [sessLine "s1" 7] }

/-- The session record parsed from `oneSessionFile`. -/
def oneSessionInfo : SessionInfo :=
  { id := "s1", summary := "New Session", messageCount := 1, lastActivity := 7, cwd := "" }

/-- A two-file directory for the delete witness: the session lives in the
second and third files, with a malformed line and a foreign line kept. -/
def delFileA : JsonlFile :=
  { name := "a.jsonl", mtime := 0, lines := [sessLine "s2" 1] }

/-- Second delete-witness file: contains s1, a malformed line and s2. -/
def delFileB : JsonlFile :=
  { name := "b.jsonl", mtime := 0,
    lines := [sessLine "s1" 2, JsonLine.malformed "garbage", sessLine "s2" 3] }

/-- Third delete-witness file: also contains s1, and must survive. -/
def delFileC : JsonlFile :=
  { name := "c.jsonl", mtime := 0, lines := [sessLine "s1" 4] }

/-- The second delete-witness file after its s1 entries are removed. -/
def delFileBClean : JsonlFile :=
  { name := "b.jsonl", mtime := 0,
    lines := [JsonLine.malformed "garbage", sessLine "s2" 3] }

end Fixtures

/-
Theorems.  General-purpose lemmas about the helper structures come first,
then one theorem per claim (with its witness or counterexample).
-/

theorem insertBy_perm {α : Type} (le : α → α → Bool) (x : α) (l : List α) :
    (insertBy le x l).Perm (x :: l) := by
  induction l with
  | nil => exact List.Perm.refl _
  | cons y ys ih =>
    simp only [insertBy]
    split
    · exact List.Perm.refl _
    · exact (ih.cons y).trans (List.Perm.swap x y ys)

theorem sortBy_perm {α : Type} (le : α → α → Bool) (l : List α) :
    (sortBy le l).Perm l := by
  induction l with
  | nil => exact List.Perm.refl _
  | cons x xs ih => exact (insertBy_perm le x (sortBy le xs)).trans (ih.cons x)

theorem insertBy_pairwise {α : Type} {le : α → α → Bool}
    (htrans : ∀ a b c, le a b = true → le b c = true → le a c = true)
    (htotal : ∀ a b, le a b = true ∨ le b a = true)
    (x : α) {l : List α} (h : l.Pairwise (fun a b => le a b = true)) :
    (insertBy le x l).Pairwise (fun a b => le a b = true) := by
  induction l with
  | nil => simp [insertBy]
  | cons y ys ih =>
    rw [List.pairwise_cons] at h
    simp only [insertBy]
    split
    next hxy =>
      refine List.Pairwise.cons ?_ (List.pairwise_cons.mpr h)
      intro z hz
      rcases List.mem_cons.mp hz with rfl | hz
      · exact hxy
      · exact htrans x y z hxy (h.1 z hz)
    next hxy =>
      refine List.Pairwise.cons ?_ (ih h.2)
      intro z hz
      rcases List.mem_cons.mp ((insertBy_perm le x ys).mem_iff.mp hz) with rfl | hz
      · rcases htotal z y with hzy | hyz
        · exact absurd hzy hxy
        · exact hyz
      · exact h.1 z hz

theorem sortBy_pairwise {α : Type} {le : α → α → Bool}
    (htrans : ∀ a b c, le a b = true → le b c = true → le a c = true)
    (htotal : ∀ a b, le a b = true ∨ le b a = true)
    (l : List α) : (sortBy le l).Pairwise (fun a b => le a b = true) := by
  induction l with
  | nil => simp [sortBy]
  | cons x xs ih => exact insertBy_pairwise htrans htotal x ih

theorem amGet_amSet_self {β : Type} (k : String) (v : β) (m : List (String × β)) :
    amGet k (amSet k v m) = some v := by
  induction m with
  | nil => simp [amSet, amGet]
  | cons kv rest ih =>
    obtain ⟨k0, v0⟩ := kv
    by_cases h : k0 = k
    · simp [amSet, amGet, h]
    · simp [amSet, amGet, h, ih]

theorem amGet_amSet_ne {β : Type} {k k' : String} (h : k' ≠ k) (v : β)
    (m : List (String × β)) : amGet k' (amSet k v m) = amGet k' m := by
  have h' : ¬ k = k' := fun hh => h hh.symm
  induction m with
  | nil => simp [amSet, amGet, h']
  | cons kv rest ih =>
    obtain ⟨k0, v0⟩ := kv
    by_cases hk : k0 = k
    · subst hk
      simp [amSet, amGet, h']
    · by_cases hk' : k0 = k'
      · simp [amSet, amGet, hk, hk', h]
      · simp [amSet, amGet, hk, hk', ih]

theorem amGet_amErase_self {β : Type} (k : String) (m : List (String × β)) :
    amGet k (amErase k m) = none := by
  induction m with
  | nil => simp [amErase, amGet]
  | cons kv rest ih =>
    obtain ⟨k0, v0⟩ := kv
    by_cases h : k0 = k
    · simpa [amErase, List.filter_cons, h] using ih
    · simpa [amErase, List.filter_cons, h, amGet] using ih

theorem amSet_of_get_none {β : Type} {k : String} (v : β) {m : List (String × β)}
    (h : amGet k m = none) : amSet k v m = m ++ [(k, v)] := by
  induction m with
  | nil => simp [amSet]
  | cons kv rest ih =>
    obtain ⟨k0, v0⟩ := kv
    by_cases hk : k0 = k
    · simp [amGet, hk] at h
    · simp only [amGet, hk, if_false, ite_false] at h
      simp [amSet, hk, ih h]

theorem mem_jsSetAdd {x y : String} {s : List String} :
    y ∈ jsSetAdd x s ↔ y ∈ s ∨ y = x := by
  by_cases h : x ∈ s
  · simp only [jsSetAdd, if_pos h]
    constructor
    · exact fun hy => Or.inl hy
    · rintro (hy | rfl)
      · exact hy
      · exact h
  · simp [jsSetAdd, if_neg h]

theorem mem_jsSetDelete {x y : String} {s : List String} :
    y ∈ jsSetDelete x s ↔ y ∈ s ∧ y ≠ x := by
  simp [jsSetDelete, List.mem_filter]

theorem jsSetDelete_of_not_mem {x : String} {s : List String} (h : x ∉ s) :
    jsSetDelete x s = s := by
  unfold jsSetDelete
  apply List.filter_eq_self.mpr
  intro a ha
  simp only [decide_eq_true_eq]
  rintro rfl
  exact h ha

theorem jsSetAdd_idem (x : String) (s : List String) :
    jsSetAdd x (jsSetAdd x s) = jsSetAdd x s := by
  have hx : x ∈ jsSetAdd x s := mem_jsSetAdd.mpr (Or.inr rfl)
  show (if x ∈ jsSetAdd x s then jsSetAdd x s else jsSetAdd x s ++ [x]) = jsSetAdd x s
  rw [if_pos hx]

/-- C3 (counterexample): when the selected project is absent from the
current and updated snapshots, `isUpdateAdditive` returns false even
though the selected session is a placeholder — the claim's "regardless of
whether the selected project is present" fails. -/
theorem isUpdateAdditive_placeholder_counterexample :
    Client.isUpdateAdditive [] [] (some Fixtures.phProject) (some Fixtures.phSession) = false ∧
    Fixtures.phSession.isPlaceholder = true := by decide

/-- C3 (amended): provided the selected project is found by name in both
the current and the updated project lists, a selected placeholder session
(flagged or temp-prefixed) makes `isUpdateAdditive` return true,
regardless of the selected session's own presence in, or changes across,
the snapshot. -/
theorem isUpdateAdditive_placeholder_allows (cur upd : List Client.Project)
    (sp csp usp : Client.Project) (ss : Client.Session)
    (hc : cur.find? (fun p => p.name == sp.name) = some csp)
    (hu : upd.find? (fun p => p.name == sp.name) = some usp)
    (hph : ss.isPlaceholder = true ∨ isPrefixList "temp-".data ss.id.data = true) :
    Client.isUpdateAdditive cur upd (some sp) (some ss) = true := by
  unfold Client.isUpdateAdditive
  dsimp only
  rw [hc, hu]
  rcases hph with h | h <;> simp [h]

/-- Witness for the amended C3 theorem at a concrete input. -/
theorem isUpdateAdditive_placeholder_allows_witness :
    Client.isUpdateAdditive [Fixtures.phProject] [Fixtures.phProject]
      (some Fixtures.phProject) (some Fixtures.phSession) = true :=
  isUpdateAdditive_placeholder_allows [Fixtures.phProject] [Fixtures.phProject]
    Fixtures.phProject Fixtures.phProject Fixtures.phProject Fixtures.phSession
    (by decide) (by decide) (Or.inl (by decide))

/-- C5 (code bug evaluation): with two manually registered config entries
sharing the original path `/x` and no project directories on disk,
`getProjects` returns two Project records with fullPath `/x` — the final
safeguard loop re-adds the duplicate that the duplicate-detection pass
deliberately suppressed, so the at-most-one-project-per-path invariant is
violated. -/
theorem getProjects_duplicate_path_bug :
    ((Server.getProjects Fixtures.bugEnv [] Fixtures.bugConfig).map (fun p => p.fullPath)
      = ["/x", "/x"]) ∧
    ¬ ((Server.getProjects Fixtures.bugEnv [] Fixtures.bugConfig).map
        (fun p => p.fullPath)).Nodup := by decide

/-- C2 (counterexample): the selected session `s1` is real and its
identity is not in the protection set, yet a snapshot changing its title
is still suppressed, because an unrelated `new-session-` marker keeps
`hasActiveSession` true — so "applied once the Protection Set no longer
contains that identity" fails as stated. -/
theorem snapshot_reapply_counterexample :
    Fixtures.markerState.selectedSession = some Fixtures.realSession ∧
    Fixtures.realSession.isPlaceholder = false ∧
    "s1" = Fixtures.realSession.id ∧
    "s1" ∉ Fixtures.markerState.activeSessions ∧
    (Client.projectsUpdated Fixtures.markerState Fixtures.retitledSnapshot 0).projects
      = Fixtures.markerState.projects ∧
    Fixtures.markerState.projects ≠ Fixtures.retitledSnapshot := by decide

/-- C7 (counterexample): with cwd history `/a, /a, /a, /a, /b` (the `/b`
entry most recent), the code selects `/b` although `/b` accounts for only
20% — less than 25% — of the observed occurrences while `/a` is the
unique most frequent cwd; read as a threshold on observed occurrences,
the claim demands `/a`. -/
theorem extract_cwd_counterexample :
    Server.extractProjectDirectory "-x" none (some [Fixtures.cwdFile]) = "/b" ∧
    (Server.scanCwd [Fixtures.cwdFile]).latestCwd = some "/b" ∧
    4 * (Server.observedCwds [Fixtures.cwdFile]).count "/b"
      < (Server.observedCwds [Fixtures.cwdFile]).length ∧
    (∀ c ∈ Server.distinctFirst (Server.observedCwds [Fixtures.cwdFile]), c ≠ "/a" →
      (Server.observedCwds [Fixtures.cwdFile]).count c
        < (Server.observedCwds [Fixtures.cwdFile]).count "/a") ∧
    ("/b" : String) ≠ "/a" := by decide

theorem temp_ne_empty {s : String} (h : isPrefixList "temp-".data s.data = true) :
    s ≠ "" := by
  intro hs
  subst hs
  simp [isPrefixList] at h

theorem ne_of_temp_marker {p r : String}
    (hp : isPrefixList "temp-".data p.data = true)
    (hr : isPrefixList "temp-".data r.data = false) : p ≠ r := by
  intro h
  subst h
  rw [hp] at hr
  exact Bool.noConfusion hr

theorem replaceSessionId_ne {rid pid : String} (hne : rid ≠ pid) (s : Client.Session) :
    (Client.replaceSessionId rid pid s).id ≠ pid := by
  unfold Client.replaceSessionId
  split
  · exact hne
  · next h => simpa using h

theorem replaceSessionId_idem {rid pid : String} (hne : rid ≠ pid)
    (s : Client.Session) :
    Client.replaceSessionId rid pid (Client.replaceSessionId rid pid s)
      = Client.replaceSessionId rid pid s := by
  have h := replaceSessionId_ne hne s
  generalize Client.replaceSessionId rid pid s = X at h ⊢
  unfold Client.replaceSessionId
  rw [if_neg (by simpa using h)]

theorem replaceInProject_no_pid {rid pid : String} (hne : rid ≠ pid)
    (p : Client.Project) (s : Client.Session)
    (hs : s ∈ (Client.replaceInProject rid pid p).sessions) : s.id ≠ pid := by
  unfold Client.replaceInProject at hs
  by_cases h : p.sessions.any (fun s => s.id == pid)
  · rw [if_pos h] at hs
    simp only at hs
    rcases List.mem_map.mp hs with ⟨s0, _, rfl⟩
    exact replaceSessionId_ne hne s0
  · rw [if_neg h] at hs
    intro hid
    rw [Bool.not_eq_true, List.any_eq_false] at h
    exact h s hs (by simp [hid])

theorem replaceInProject_any_false {rid pid : String} (hne : rid ≠ pid)
    (p : Client.Project) :
    (Client.replaceInProject rid pid p).sessions.any (fun s => s.id == pid) = false := by
  rw [List.any_eq_false]
  intro s hs
  simpa using replaceInProject_no_pid hne p s hs

theorem replaceInProject_idem {rid pid : String} (hne : rid ≠ pid)
    (p : Client.Project) :
    Client.replaceInProject rid pid (Client.replaceInProject rid pid p)
      = Client.replaceInProject rid pid p := by
  have h := replaceInProject_any_false hne p
  generalize Client.replaceInProject rid pid p = X at h ⊢
  unfold Client.replaceInProject
  rw [h]
  simp

theorem countP_map_replace {rid pid : String} (hrp : rid ≠ pid)
    (l : List Client.Session) :
    (l.map (Client.replaceSessionId rid pid)).countP (fun s => s.id == rid)
      = l.countP (fun s => s.id == pid || s.id == rid) := by
  induction l with
  | nil => rfl
  | cons s rest ih =>
    simp only [List.map_cons, List.countP_cons, ih]
    congr 1
    by_cases h : s.id = pid
    · simp [Client.replaceSessionId, h]
    · by_cases h2 : s.id = rid
      · simp [Client.replaceSessionId, h, h2, hrp]
      · simp [Client.replaceSessionId, h, h2]

/-- C1: for a placeholder identity and a distinct real identity, after the
sequence `handleNewSession` (startNewConversation), `markSessionAsActive`
(the protection half of sendMessage) and `replacePlaceholderSession`
(onIdentityAssigned), the protection set contains the real identity and
not the placeholder, no session in any project, in the selected project or
in the selection carries the placeholder identity, and the placeholder's
persisted record is gone. -/
theorem placeholder_never_coexists (st st3 : Client.AppState) (proj : Client.Project)
    (pid rid nowIso : String) (nowMs : Int)
    (hpid : isPrefixList "temp-".data pid.data = true)
    (hrid : isPrefixList "temp-".data rid.data = false)
    (hrne : rid ≠ "")
    (hst3 : st3 = Client.replacePlaceholderSession rid pid
      (Client.markSessionAsActive pid (Client.handleNewSession pid nowIso nowMs proj st))) :
    rid ∈ st3.activeSessions ∧
    pid ∉ st3.activeSessions ∧
    (∀ p ∈ st3.projects, ∀ s ∈ p.sessions, s.id ≠ pid) ∧
    (∀ sp, st3.selectedProject = some sp → ∀ s ∈ sp.sessions, s.id ≠ pid) ∧
    (∀ ss, st3.selectedSession = some ss → ss.id ≠ pid) ∧
    amGet pid st3.placeholderRegistry = none := by
  have hpne : pid ≠ "" := temp_ne_empty hpid
  have hrp : rid ≠ pid := Ne.symm (ne_of_temp_marker hpid hrid)
  subst hst3
  simp only [Client.handleNewSession, Client.markSessionAsActive, if_pos hpne,
    Client.replacePlaceholderSession, if_pos (And.intro hrne hpne)]
  refine ⟨?_, ?_, ?_, ?_, ?_, ?_⟩
  · exact mem_jsSetAdd.mpr (Or.inr rfl)
  · intro hmem
    rcases mem_jsSetAdd.mp hmem with hmem | hmem
    · exact (mem_jsSetDelete.mp hmem).2 rfl
    · exact hrp hmem.symm
  · intro p hp s hs
    rcases List.mem_map.mp hp with ⟨p0, _, rfl⟩
    exact replaceInProject_no_pid hrp p0 s hs
  · intro sp hsp s hs
    rw [Option.some_inj] at hsp
    subst hsp
    exact replaceInProject_no_pid hrp _ s hs
  · intro ss hss
    rw [Option.some_inj] at hss
    subst hss
    exact replaceSessionId_ne hrp _
  · exact amGet_amErase_self pid _

/-- Witness for C1 at a concrete input. -/
theorem placeholder_never_coexists_witness :
    isPrefixList "temp-".data "temp-9".data = true ∧
    isPrefixList "temp-".data "abc-real".data = false ∧
    ("abc-real" : String) ≠ "" ∧
    "abc-real" ∈ (Client.replacePlaceholderSession "abc-real" "temp-9"
      (Client.markSessionAsActive "temp-9" (Client.handleNewSession "temp-9" "t1" 5
        { name := "demo", sessions := [], sessionMetaTotal := 0 }
        Fixtures.startState))).activeSessions :=
  ⟨by decide, by decide, by decide,
    (placeholder_never_coexists Fixtures.startState _
      { name := "demo", sessions := [], sessionMetaTotal := 0 }
      "temp-9" "abc-real" "t1" 5 (by decide) (by decide) (by decide) rfl).1⟩

/-- C4: a second `replacePlaceholderSession` with the same real and
placeholder identities is a no-op on the resulting state; the protection
set (a JS Set, duplicate-free) then counts the real identity exactly once,
the project map is exactly one placeholder-for-real substitution per
project, and a project that held at most one session for the conversation
(placeholder or real) ends with at most one session carrying the real
identity. -/
theorem replacePlaceholder_idempotent (st : Client.AppState) (pid rid : String)
    (hpid : isPrefixList "temp-".data pid.data = true)
    (hrid : isPrefixList "temp-".data rid.data = false)
    (hrne : rid ≠ "") :
    Client.replacePlaceholderSession rid pid (Client.replacePlaceholderSession rid pid st)
      = Client.replacePlaceholderSession rid pid st ∧
    (st.activeSessions.Nodup →
      (Client.replacePlaceholderSession rid pid st).activeSessions.count rid = 1) ∧
    (Client.replacePlaceholderSession rid pid st).projects
      = st.projects.map (Client.replaceInProject rid pid) ∧
    (∀ p ∈ st.projects,
      p.sessions.countP (fun s => s.id == pid || s.id == rid) ≤ 1 →
      (Client.replaceInProject rid pid p).sessions.countP (fun s => s.id == rid) ≤ 1) := by
  have hpne : pid ≠ "" := temp_ne_empty hpid
  have hrp : rid ≠ pid := Ne.symm (ne_of_temp_marker hpid hrid)
  refine ⟨?_, ?_, ?_, ?_⟩
  · obtain ⟨ps, spo, sso, act, reg⟩ := st
    have hpd : pid ∉ jsSetAdd rid (jsSetDelete pid act) := by
      intro hmem
      rcases mem_jsSetAdd.mp hmem with hmem | hmem
      · exact (mem_jsSetDelete.mp hmem).2 rfl
      · exact hrp hmem.symm
    simp only [Client.replacePlaceholderSession, if_pos (And.intro hrne hpne)]
    congr 1
    · -- projects: the substitution is idempotent per project
      rw [List.map_map]
      apply List.map_congr_left
      intro p _
      exact replaceInProject_idem hrp p
    · -- selected project
      cases spo with
      | none => rfl
      | some sp => exact congrArg some (replaceInProject_idem hrp sp)
    · -- selected session
      cases sso with
      | none => rfl
      | some ss => exact congrArg some (replaceSessionId_idem hrp ss)
    · -- protection set: delete pid then add rid is idempotent
      rw [jsSetDelete_of_not_mem hpd, jsSetAdd_idem]
    · -- placeholder registry: erasing twice equals erasing once
      apply List.filter_eq_self.mpr
      intro kv hkv
      simp only [amErase, List.mem_filter] at hkv
      exact hkv.2
  · intro hnd
    simp only [Client.replacePlaceholderSession, if_pos (And.intro hrne hpne)]
    have hnd' : (jsSetDelete pid st.activeSessions).Nodup := hnd.filter _
    by_cases hmem : rid ∈ jsSetDelete pid st.activeSessions
    · rw [jsSetAdd, if_pos hmem]
      exact List.count_eq_one_of_mem hnd' hmem
    · rw [jsSetAdd, if_neg hmem, List.count_append,
        List.count_eq_zero_of_not_mem hmem]
      simp
  · simp only [Client.replacePlaceholderSession, if_pos (And.intro hrne hpne)]
  · intro p _ hcount
    unfold Client.replaceInProject
    by_cases hany : p.sessions.any (fun s => s.id == pid) = true
    · rw [if_pos hany]
      simp only
      rw [countP_map_replace hrp]
      exact hcount
    · rw [if_neg hany]
      calc p.sessions.countP (fun s => s.id == rid)
          ≤ p.sessions.countP (fun s => s.id == pid || s.id == rid) :=
            List.countP_mono_left (fun s _ h => by simp [h])
        _ ≤ 1 := hcount

/-- Witness for C4 at a concrete input. -/
theorem replacePlaceholder_idempotent_witness :
    Fixtures.phAppState.activeSessions.Nodup ∧
    Client.replacePlaceholderSession "abc-real" "temp-1"
        (Client.replacePlaceholderSession "abc-real" "temp-1" Fixtures.phAppState)
      = Client.replacePlaceholderSession "abc-real" "temp-1" Fixtures.phAppState ∧
    (Client.replacePlaceholderSession "abc-real" "temp-1"
        Fixtures.phAppState).activeSessions.count "abc-real" = 1 :=
  ⟨by decide,
    (replacePlaceholder_idempotent Fixtures.phAppState "temp-1" "abc-real"
      (by decide) (by decide) (by decide)).1,
    (replacePlaceholder_idempotent Fixtures.phAppState "temp-1" "abc-real"
      (by decide) (by decide) (by decide)).2.1 (by decide)⟩

theorem addPlaceholderSessions_empty (now : Int) (ps : List Client.Project) :
    Client.addPlaceholderSessions [] now ps = (ps, []) := by
  unfold Client.addPlaceholderSessions
  simp

theorem isUpdateAdditive_false_of_diff {cur snap : List Client.Project}
    {sp csp usp : Client.Project} {ss cs us : Client.Session}
    (hreal : ss.isPlaceholder = false)
    (htemp : isPrefixList "temp-".data ss.id.data = false)
    (hfc : cur.find? (fun p => p.name == sp.name) = some csp)
    (hfu : snap.find? (fun p => p.name == sp.name) = some usp)
    (hsc : csp.sessions.find? (fun s => s.id == ss.id) = some cs)
    (hsu : usp.sessions.find? (fun s => s.id == ss.id) = some us)
    (hdiff : cs.title ≠ us.title ∨ cs.created_at ≠ us.created_at ∨
      cs.updated_at ≠ us.updated_at) :
    Client.isUpdateAdditive cur snap (some sp) (some ss) = false := by
  unfold Client.isUpdateAdditive
  dsimp only
  rw [hfc, hfu]
  simp only []
  rw [if_neg (by simp [hreal, htemp]), hsc, hsu]
  simp only []
  rcases hdiff with h | h | h <;> simp [h]

/-- C2 (amended): for a selected real session found in both the current
state and the snapshot whose title, created_at or updated_at differs,
the snapshot is suppressed (state unchanged) while the protection set
contains the session's identity; once the protection set contains neither
that identity nor any `new-session-` marker — and given no persisted
placeholder records, which would otherwise be re-added — the snapshot is
applied in full. -/
theorem snapshot_protection (st : Client.AppState) (snapshot : List Client.Project)
    (now : Int) (sp csp usp : Client.Project) (ss cs us : Client.Session)
    (hsp : st.selectedProject = some sp) (hss : st.selectedSession = some ss)
    (hreal : ss.isPlaceholder = false)
    (htemp : isPrefixList "temp-".data ss.id.data = false)
    (hfc : st.projects.find? (fun p => p.name == sp.name) = some csp)
    (hfu : snapshot.find? (fun p => p.name == sp.name) = some usp)
    (hsc : csp.sessions.find? (fun s => s.id == ss.id) = some cs)
    (hsu : usp.sessions.find? (fun s => s.id == ss.id) = some us)
    (hdiff : cs.title ≠ us.title ∨ cs.created_at ≠ us.created_at ∨
      cs.updated_at ≠ us.updated_at) :
    (ss.id ∈ st.activeSessions → Client.projectsUpdated st snapshot now = st) ∧
    (ss.id ∉ st.activeSessions →
      (∀ i ∈ st.activeSessions, isPrefixList "new-session-".data i.data = false) →
      st.placeholderRegistry = [] →
      (Client.projectsUpdated st snapshot now).projects = snapshot) := by
  have hadd := isUpdateAdditive_false_of_diff hreal htemp hfc hfu hsc hsu hdiff
  constructor
  · intro hmem
    unfold Client.projectsUpdated
    rw [hss, hsp]
    simp only []
    rw [decide_eq_true hmem, hadd]
    simp
  · intro hmem hmarker hreg
    have hany : st.activeSessions.any
        (fun i => isPrefixList "new-session-".data i.data) = false :=
      List.any_eq_false.mpr (fun i hi => by simp [hmarker i hi])
    unfold Client.projectsUpdated
    rw [hss, hsp, hreg]
    simp only []
    rw [decide_eq_false hmem, hany]
    rw [if_neg (by simp)]
    rw [addPlaceholderSessions_empty]
    simp only []
    rw [hfu]
    simp only []
    by_cases heq : usp = sp
    · rw [if_pos heq]
    · rw [if_neg heq]
      rw [hsu]

/-- Witness for the amended C2 theorem: the protected state suppresses the
retitling snapshot, and the unprotected state applies it in full. -/
theorem snapshot_protection_witness :
    Client.projectsUpdated Fixtures.protectedState Fixtures.retitledSnapshot 0
      = Fixtures.protectedState ∧
    (Client.projectsUpdated Fixtures.idleState Fixtures.retitledSnapshot 0).projects
      = Fixtures.retitledSnapshot :=
  ⟨(snapshot_protection Fixtures.protectedState Fixtures.retitledSnapshot 0
      Fixtures.realProject Fixtures.realProject
      { Fixtures.realProject with sessions := [{ Fixtures.realSession with title := "new title" }] }
      Fixtures.realSession Fixtures.realSession
      { Fixtures.realSession with title := "new title" }
      (by decide) (by decide) (by decide) (by decide) (by decide) (by decide)
      (by decide) (by decide) (Or.inl (by decide))).1 (by decide),
   (snapshot_protection Fixtures.idleState Fixtures.retitledSnapshot 0
      Fixtures.realProject Fixtures.realProject
      { Fixtures.realProject with sessions := [{ Fixtures.realSession with title := "new title" }] }
      Fixtures.realSession Fixtures.realSession
      { Fixtures.realSession with title := "new title" }
      (by decide) (by decide) (by decide) (by decide) (by decide) (by decide)
      (by decide) (by decide) (Or.inl (by decide))).2 (by decide)
      (by intro i hi; simp [Fixtures.idleState] at hi) rfl⟩

/-- C8 (counterexample): the common path `/home/user` does not round-trip:
its encoding `-home-user` decodes to `/home-user`, because consecutive
multi-letter lowercase segments are rejoined with hyphens. -/
theorem name_roundtrip_counterexample :
    Server.smartDecodeProjectName (Server.encodeProjectName "/home/user".data)
      = "/home-user".data ∧
    "/home-user".data ≠ "/home/user".data := by decide

theorem char_not_le_Z {c : Char} (h : 97 ≤ c.toNat) : ¬ (c ≤ 'Z') := by
  intro hle
  have h1 : c.val.toNat ≤ ('Z' : Char).val.toNat := by exact_mod_cast Char.le_def.mp hle
  have h2 : ('Z' : Char).val.toNat = 90 := by decide
  simp only [Char.toNat] at h
  omega

theorem replaceSlashes_id {w : List Char} (h : ∀ c ∈ w, c ≠ '/') :
    Server.replaceSlashes w = w := by
  induction w with
  | nil => rfl
  | cons c rest ih =>
    simp only [Server.replaceSlashes, List.map_cons, if_neg (h c (List.mem_cons_self c rest))]
    have := ih (fun c hc => h c (List.mem_cons_of_mem _ hc))
    simp only [Server.replaceSlashes] at this
    rw [this]

theorem collapseWhitespace_id {w : List Char}
    (h : ∀ c ∈ w, Server.isJsWhitespace c = false) :
    Server.collapseWhitespace false w = w := by
  induction w with
  | nil => rfl
  | cons c rest ih =>
    rw [Server.collapseWhitespace]
    rw [if_neg (by rw [h c (List.mem_cons_self c rest)]; exact fun hh => Bool.noConfusion hh)]
    rw [ih (fun c hc => h c (List.mem_cons_of_mem _ hc))]

theorem splitOnChar_no_sep {sep : Char} {w : List Char} (h : ∀ c ∈ w, c ≠ sep) :
    Server.splitOnChar sep w = [w] := by
  induction w with
  | nil => rfl
  | cons c rest ih =>
    rw [Server.splitOnChar]
    rw [if_neg (h c (List.mem_cons_self c rest))]
    rw [ih (fun c hc => h c (List.mem_cons_of_mem _ hc))]

theorem isCapSeg_false_of_lower {w : List Char} (h : ∀ c ∈ w, 97 ≤ c.toNat) :
    Server.isCapSeg w = false := by
  cases w with
  | nil => rfl
  | cons a t =>
    cases t with
    | nil => rfl
    | cons b t2 =>
      have hna : ¬ (a ≤ 'Z') := char_not_le_Z (h a (List.mem_cons_self a _))
      simp [Server.isCapSeg, hna]

/-- C8 (amended): the encode-then-decode round-trip holds for absolute
paths with a single segment that is a multi-letter all-lowercase ASCII
word; in general it fails (see the counterexample). -/
theorem name_roundtrip_lowercase_segment (w : List Char)
    (hlen : 2 ≤ w.length)
    (hlc : ∀ c ∈ w, 97 ≤ c.toNat ∧ c.toNat ≤ 122) :
    Server.smartDecodeProjectName (Server.encodeProjectName ('/' :: w)) = '/' :: w := by
  have hge : ∀ c ∈ w, 97 ≤ c.toNat := fun c hc => (hlc c hc).1
  have hns : ∀ c ∈ w, c ≠ '/' := by
    intro c hc hcc
    subst hcc
    exact absurd (hge _ hc) (by decide)
  have hnd : ∀ c ∈ w, c ≠ '-' := by
    intro c hc hcc
    subst hcc
    exact absurd (hge _ hc) (by decide)
  have hws : ∀ c ∈ w, Server.isJsWhitespace c = false := by
    intro c hc
    have := hge c hc
    unfold Server.isJsWhitespace
    have h1 : c ≠ ' ' := by rintro rfl; exact absurd this (by decide)
    have h2 : c ≠ '\t' := by rintro rfl; exact absurd this (by decide)
    have h3 : c ≠ '\n' := by rintro rfl; exact absurd this (by decide)
    have h4 : c ≠ '\r' := by rintro rfl; exact absurd this (by decide)
    simp [h1, h2, h3, h4]
  have h1 : Server.encodeProjectName ('/' :: w) = '-' :: w := by
    show '-' :: Server.collapseWhitespace false (Server.replaceSlashes w) = '-' :: w
    rw [replaceSlashes_id hns, collapseWhitespace_id hws]
  rw [h1]
  show '/' :: Server.joinWithChar '/'
      (Server.decodeGroups (Server.splitOnChar '-' w).length (Server.splitOnChar '-' w))
    = '/' :: w
  rw [splitOnChar_no_sep hnd]
  have hone : Server.decodeGroups [w].length [w] = [w] := by
    have hne1 : ¬ (w.length = 1) := by omega
    rw [show [w].length = 0 + 1 from rfl, Server.decodeGroups]
    rw [if_neg hne1, if_neg (by rw [isCapSeg_false_of_lower hge]; exact fun hh => Bool.noConfusion hh)]
    rfl
  rw [hone]
  rfl

/-- Witness for the amended C8 theorem at the path `/home`. -/
theorem name_roundtrip_lowercase_segment_witness :
    2 ≤ "home".data.length ∧
    Server.smartDecodeProjectName (Server.encodeProjectName ('/' :: "home".data))
      = '/' :: "home".data :=
  ⟨by decide, name_roundtrip_lowercase_segment "home".data (by decide) (by decide)⟩

theorem mem_sessionEntriesOf {sessionId : String} {files : List Server.JsonlFile}
    {e : Server.LogEntry} :
    e ∈ Server.sessionEntriesOf sessionId files ↔
      ∃ f ∈ files, Server.isJsonlName f.name = true ∧
        Server.JsonLine.parsed e ∈ f.lines ∧ e.sessionId = some sessionId := by
  unfold Server.sessionEntriesOf
  rw [List.mem_filterMap]
  constructor
  · rintro ⟨l, hl, hmatch⟩
    rcases List.mem_flatten.mp hl with ⟨ls, hls, hlls⟩
    rcases List.mem_map.mp hls with ⟨f, hf, rfl⟩
    rcases List.mem_filter.mp hf with ⟨hmemf, hjson⟩
    cases l with
    | malformed raw => exact absurd hmatch (by simp)
    | parsed e0 =>
      simp only at hmatch
      by_cases hsid : (e0.sessionId == some sessionId) = true
      · rw [if_pos hsid, Option.some_inj] at hmatch
        subst hmatch
        exact ⟨f, hmemf, hjson, hlls, by simpa using hsid⟩
      · rw [if_neg hsid] at hmatch
        exact absurd hmatch (by simp)
  · rintro ⟨f, hf, hjson, hline, hsid⟩
    refine ⟨Server.JsonLine.parsed e, ?_, ?_⟩
    · exact List.mem_flatten.mpr ⟨f.lines,
        List.mem_map.mpr ⟨f, List.mem_filter.mpr ⟨hf, hjson⟩, rfl⟩, hline⟩
    · simp [hsid]

/-- C9: `getSessionMessages` returns the empty list for placeholder
identities and for a missing project directory; for a real identity it
returns a permutation of exactly the well-formed entries matching the
identity across all `.jsonl` files, sorted by timestamp ascending. -/
theorem getSessionMessages_spec (sessionId : String)
    (dir : Option (List Server.JsonlFile)) :
    (isPrefixList "temp-".data sessionId.data = true →
      Server.getSessionMessages sessionId dir = []) ∧
    (dir = none → Server.getSessionMessages sessionId dir = []) ∧
    (∀ files, dir = some files →
      isPrefixList "temp-".data sessionId.data = false →
      (Server.getSessionMessages sessionId dir).Perm
          (Server.sessionEntriesOf sessionId files) ∧
      (Server.getSessionMessages sessionId dir).Pairwise
          (fun a b => a.timestamp.getD 0 ≤ b.timestamp.getD 0) ∧
      (∀ e, e ∈ Server.sessionEntriesOf sessionId files ↔
        ∃ f ∈ files, Server.isJsonlName f.name = true ∧
          Server.JsonLine.parsed e ∈ f.lines ∧ e.sessionId = some sessionId)) := by
  refine ⟨?_, ?_, ?_⟩
  · intro h
    simp [Server.getSessionMessages, h]
  · intro h
    subst h
    simp [Server.getSessionMessages]
  · intro files hdir htemp
    subst hdir
    have hunfold : Server.getSessionMessages sessionId (some files) =
        if (files.filter (fun f => Server.isJsonlName f.name)).isEmpty then []
        else sortBy (fun a b => decide (a.timestamp.getD 0 ≤ b.timestamp.getD 0))
          (Server.sessionEntriesOf sessionId files) := by
      unfold Server.getSessionMessages
      rw [if_neg (by rw [htemp]; exact fun hh => Bool.noConfusion hh)]
    refine ⟨?_, ?_, fun e => mem_sessionEntriesOf⟩
    · rw [hunfold]
      by_cases hempty : (files.filter (fun f => Server.isJsonlName f.name)).isEmpty
      · rw [if_pos hempty]
        have : files.filter (fun f => Server.isJsonlName f.name) = [] :=
          List.isEmpty_iff.mp hempty
        unfold Server.sessionEntriesOf
        rw [this]
        exact List.Perm.refl _
      · rw [if_neg hempty]
        exact sortBy_perm _ _
    · rw [hunfold]
      by_cases hempty : (files.filter (fun f => Server.isJsonlName f.name)).isEmpty
      · rw [if_pos hempty]
        exact List.Pairwise.nil
      · rw [if_neg hempty]
        have hp := @sortBy_pairwise Server.LogEntry
          (fun a b => decide (a.timestamp.getD 0 ≤ b.timestamp.getD 0))
          (fun a b c ha hb => decide_eq_true
            (le_trans (of_decide_eq_true ha) (of_decide_eq_true hb)))
          (fun a b => by
            rcases le_total (a.timestamp.getD 0) (b.timestamp.getD 0) with h | h
            · exact Or.inl (decide_eq_true h)
            · exact Or.inr (decide_eq_true h))
          (Server.sessionEntriesOf sessionId files)
        exact hp.imp (fun hab => of_decide_eq_true hab)

/-- Witness for C9 at concrete inputs: a placeholder identity, a missing
directory, and a real identity with one matching file. -/
theorem getSessionMessages_spec_witness :
    Server.getSessionMessages "temp-1" (some [Fixtures.oneSessionFile]) = [] ∧
    Server.getSessionMessages "s1" none = [] ∧
    (Server.getSessionMessages "s1" (some [Fixtures.oneSessionFile])).Perm
      (Server.sessionEntriesOf "s1" [Fixtures.oneSessionFile]) :=
  ⟨(getSessionMessages_spec "temp-1" (some [Fixtures.oneSessionFile])).1 (by decide),
   (getSessionMessages_spec "s1" none).2.1 rfl,
   ((getSessionMessages_spec "s1" (some [Fixtures.oneSessionFile])).2.2
      [Fixtures.oneSessionFile] rfl (by decide)).1⟩

theorem deleteSessionScan_eq_some {sid : String} :
    ∀ {files files' : List Server.JsonlFile},
    Server.deleteSessionScan sid files = some files' →
    ∃ pre f post, files = pre ++ f :: post ∧
      (Server.isJsonlName f.name && Server.fileHasSession sid f) = true ∧
      (∀ g ∈ pre, (Server.isJsonlName g.name && Server.fileHasSession sid g) = false) ∧
      files' = pre ++
        { f with lines := f.lines.filter (fun l => !Server.lineMatches sid l) } :: post := by
  intro files
  induction files with
  | nil => intro files' h; exact absurd h (by simp [Server.deleteSessionScan])
  | cons f rest ih =>
    intro files' h
    rw [Server.deleteSessionScan] at h
    by_cases hcond : (Server.isJsonlName f.name && Server.fileHasSession sid f) = true
    · rw [if_pos hcond, Option.some_inj] at h
      exact ⟨[], f, rest, rfl, hcond, by simp, h.symm⟩
    · rw [if_neg hcond] at h
      cases hrec : Server.deleteSessionScan sid rest with
      | none => rw [hrec] at h; exact absurd h (by simp)
      | some rest' =>
        rw [hrec] at h
        rw [Option.some_inj] at h
        rcases ih hrec with ⟨pre, f0, post, hdecomp, hf0, hpre, hrest'⟩
        refine ⟨f :: pre, f0, post, by rw [hdecomp]; rfl, hf0, ?_, ?_⟩
        · intro g hg
          rcases List.mem_cons.mp hg with rfl | hg
          · exact Bool.eq_false_iff.mpr hcond
          · exact hpre g hg
        · rw [← h, hrest']
          rfl

/-- C10: for a non-placeholder identity, `deleteSession` rewrites exactly
the first `.jsonl` file (in directory order) containing a well-formed
entry of the session — removing precisely the well-formed lines of that
session and keeping malformed lines and other sessions' lines in order —
while every earlier `.jsonl` file has no entry of the session and every
other file, including later files still holding entries of the session,
is left unchanged. -/
theorem deleteSession_frame (sessionId : String)
    (files files' : List Server.JsonlFile)
    (htemp : isPrefixList "temp-".data sessionId.data = false)
    (hok : Server.deleteSession sessionId (some files) = Except.ok (some files')) :
    ∃ pre f post, files = pre ++ f :: post ∧
      Server.isJsonlName f.name = true ∧
      Server.fileHasSession sessionId f = true ∧
      (∀ g ∈ pre, Server.isJsonlName g.name = true →
        Server.fileHasSession sessionId g = false) ∧
      files' = pre ++
        { f with lines := f.lines.filter (fun l => !Server.lineMatches sessionId l) } :: post ∧
      (f.lines.filter (fun l => !Server.lineMatches sessionId l)).Sublist f.lines ∧
      (∀ l, l ∈ f.lines.filter (fun l => !Server.lineMatches sessionId l) ↔
        (l ∈ f.lines ∧ Server.lineMatches sessionId l = false)) := by
  unfold Server.deleteSession at hok
  rw [if_neg (by rw [htemp]; exact fun hh => Bool.noConfusion hh)] at hok
  simp only [] at hok
  by_cases hempty : (files.filter (fun f => Server.isJsonlName f.name)).isEmpty
  · rw [if_pos hempty] at hok
    exact absurd hok (by simp)
  · rw [if_neg hempty] at hok
    cases hscan : Server.deleteSessionScan sessionId files with
    | none => rw [hscan] at hok; exact absurd hok (by simp)
    | some files'' =>
      rw [hscan] at hok
      have hfe : files'' = files' := by
        have := hok
        simp only [Except.ok.injEq, Option.some_inj] at this
        exact this
      subst hfe
      rcases deleteSessionScan_eq_some hscan with ⟨pre, f, post, hdecomp, hcond, hpre, hout⟩
      rw [Bool.and_eq_true] at hcond
      obtain ⟨hjson, hhas⟩ := hcond
      refine ⟨pre, f, post, hdecomp, hjson, hhas, ?_, hout, List.filter_sublist _, ?_⟩
      · intro g hg hgjson
        have hgf := hpre g hg
        cases hb : Server.fileHasSession sessionId g with
        | false => rfl
        | true => rw [hgjson, hb] at hgf; exact absurd hgf (by simp)
      · intro l
        rw [List.mem_filter]
        constructor
        · rintro ⟨hl, hkeep⟩
          exact ⟨hl, by simpa using hkeep⟩
        · rintro ⟨hl, hmatch⟩
          exact ⟨hl, by simpa using hmatch⟩

/-- Witness for C10: deleting `s1` from a three-file directory rewrites
only the second file (the first containing `s1`), keeps its malformed and
foreign lines, and leaves the later file holding `s1` untouched. -/
theorem deleteSession_frame_witness :
    ∃ pre f post,
      [Fixtures.delFileA, Fixtures.delFileB, Fixtures.delFileC] = pre ++ f :: post ∧
      Server.isJsonlName f.name = true ∧
      Server.fileHasSession "s1" f = true ∧
      (∀ g ∈ pre, Server.isJsonlName g.name = true →
        Server.fileHasSession "s1" g = false) ∧
      [Fixtures.delFileA, Fixtures.delFileBClean, Fixtures.delFileC] = pre ++
        { f with lines := f.lines.filter (fun l => !Server.lineMatches "s1" l) } :: post ∧
      (f.lines.filter (fun l => !Server.lineMatches "s1" l)).Sublist f.lines ∧
      (∀ l, l ∈ f.lines.filter (fun l => !Server.lineMatches "s1" l) ↔
        (l ∈ f.lines ∧ Server.lineMatches "s1" l = false)) :=
  deleteSession_frame "s1" [Fixtures.delFileA, Fixtures.delFileB, Fixtures.delFileC]
    [Fixtures.delFileA, Fixtures.delFileBClean, Fixtures.delFileC]
    (by decide) (by decide)

theorem amGet_eq_none_iff {β : Type} {k : String} {m : List (String × β)} :
    amGet k m = none ↔ k ∉ m.map Prod.fst := by
  induction m with
  | nil => simp [amGet]
  | cons kv rest ih =>
    obtain ⟨k0, v0⟩ := kv
    simp only [amGet, List.map_cons, List.mem_cons]
    by_cases h : k0 = k
    · subst h
      simp
    · rw [if_neg h, ih]
      constructor
      · intro hh hor
        exact hor.elim (fun he => h he.symm) hh
      · intro hh hm
        exact hh (Or.inr hm)

theorem amGet_mergeParsed_of_some {ss : List Server.SessionInfo}
    {acc : List (String × Server.SessionInfo)} {k : String} {v : Server.SessionInfo}
    (h : amGet k acc = some v) :
    amGet k (Server.mergeParsed ss acc) = some v := by
  induction ss generalizing acc with
  | nil => exact h
  | cons s rest ih =>
    unfold Server.mergeParsed
    rw [List.foldl_cons]
    by_cases hs : (amGet s.id acc).isSome
    · rw [if_pos hs]
      exact ih h
    · rw [if_neg hs]
      apply ih
      by_cases hk : s.id = k
      · subst hk
        rw [h] at hs
        exact absurd rfl hs
      · rw [amGet_amSet_ne (fun hh => hk hh.symm)]
        exact h

theorem isSome_amGet_mergeParsed {ss : List Server.SessionInfo}
    {acc : List (String × Server.SessionInfo)} {k : String}
    (h : (amGet k acc).isSome) :
    (amGet k (Server.mergeParsed ss acc)).isSome := by
  cases hv : amGet k acc with
  | none => rw [hv] at h; exact absurd h (by simp)
  | some v => rw [amGet_mergeParsed_of_some hv]; rfl

theorem isSome_amGet_mergeParsed_of_mem {ss : List Server.SessionInfo}
    {acc : List (String × Server.SessionInfo)} {s : Server.SessionInfo}
    (h : s ∈ ss) :
    (amGet s.id (Server.mergeParsed ss acc)).isSome := by
  induction ss generalizing acc with
  | nil => exact absurd h (by simp)
  | cons s0 rest ih =>
    unfold Server.mergeParsed
    rw [List.foldl_cons]
    rcases List.mem_cons.mp h with rfl | hmem
    · show (amGet s.id (Server.mergeParsed rest _)).isSome
      by_cases hs : (amGet s.id acc).isSome
      · rw [if_pos hs]
        exact isSome_amGet_mergeParsed hs
      · rw [if_neg hs]
        apply isSome_amGet_mergeParsed
        rw [amGet_amSet_self]
        rfl
    · exact ih hmem

theorem amGet_none_of_mergeStep_none {s : Server.SessionInfo}
    {acc : List (String × Server.SessionInfo)} {k : String}
    (h : amGet k (if (amGet s.id acc).isSome then acc else amSet s.id s acc) = none) :
    amGet k acc = none := by
  by_cases hs : (amGet s.id acc).isSome
  · rwa [if_pos hs] at h
  · rw [if_neg hs] at h
    by_cases hk : s.id = k
    · subst hk
      rw [amGet_amSet_self] at h
      exact absurd h (by simp)
    · rwa [amGet_amSet_ne (fun hh => hk hh.symm)] at h

theorem mem_mergeParsed {ss : List Server.SessionInfo}
    {acc : List (String × Server.SessionInfo)} {kv : String × Server.SessionInfo}
    (h : kv ∈ Server.mergeParsed ss acc) :
    kv ∈ acc ∨ (kv.2 ∈ ss ∧ kv.2.id = kv.1 ∧ amGet kv.1 acc = none) := by
  induction ss generalizing acc with
  | nil => exact Or.inl h
  | cons s rest ih =>
    unfold Server.mergeParsed at h
    rw [List.foldl_cons] at h
    rcases ih h with hmem | ⟨hin, hid, hnone⟩
    · by_cases hs : (amGet s.id acc).isSome
      · rw [if_pos hs] at hmem
        exact Or.inl hmem
      · rw [if_neg hs] at hmem
        have hnone : amGet s.id acc = none := by
          cases hv : amGet s.id acc with
          | none => rfl
          | some v => rw [hv] at hs; exact absurd rfl hs
        rw [amSet_of_get_none s hnone] at hmem
        rcases List.mem_append.mp hmem with hmem | hmem
        · exact Or.inl hmem
        · rcases List.mem_singleton.mp hmem with rfl
          exact Or.inr ⟨List.mem_cons_self s rest, rfl, hnone⟩
    · refine Or.inr ⟨List.mem_cons_of_mem s hin, hid, ?_⟩
      exact amGet_none_of_mergeStep_none hnone

theorem amGet_loop_of_some {now : Int} {limit offset totalFiles : Nat}
    {fs : List Server.JsonlFile} {acc : List (String × Server.SessionInfo)}
    {pc : Nat} {k : String} {v : Server.SessionInfo}
    (h : amGet k acc = some v) :
    amGet k (Server.mergeSessionsLoop now limit offset totalFiles fs acc pc) = some v := by
  induction fs generalizing acc pc with
  | nil => exact h
  | cons f rest ih =>
    rw [Server.mergeSessionsLoop]
    split
    · exact amGet_mergeParsed_of_some h
    · exact ih (amGet_mergeParsed_of_some h)

theorem mem_mergeSessionsLoop {now : Int} {limit offset totalFiles : Nat} :
    ∀ {fs : List Server.JsonlFile} {acc : List (String × Server.SessionInfo)}
    {pc : Nat} {kv : String × Server.SessionInfo},
    kv ∈ Server.mergeSessionsLoop now limit offset totalFiles fs acc pc →
    kv ∈ acc ∨ ∃ pre f post, fs = pre ++ f :: post ∧
      kv.2 ∈ Server.parseJsonlSessions now f.lines ∧
      kv.2.id = kv.1 ∧ amGet kv.1 acc = none ∧
      ∀ g ∈ pre, ∀ t ∈ Server.parseJsonlSessions now g.lines, t.id ≠ kv.1 := by
  intro fs
  induction fs with
  | nil => intro acc pc kv h; exact Or.inl h
  | cons f rest ih =>
    intro acc pc kv h
    rw [Server.mergeSessionsLoop] at h
    have hstep : ∀ hkv : kv ∈ Server.mergeParsed (Server.parseJsonlSessions now f.lines) acc,
        kv ∈ acc ∨ ∃ pre f0 post, f :: rest = pre ++ f0 :: post ∧
          kv.2 ∈ Server.parseJsonlSessions now f0.lines ∧
          kv.2.id = kv.1 ∧ amGet kv.1 acc = none ∧
          ∀ g ∈ pre, ∀ t ∈ Server.parseJsonlSessions now g.lines, t.id ≠ kv.1 := by
      intro hkv
      rcases mem_mergeParsed hkv with hmem | ⟨hin, hid, hnone⟩
      · exact Or.inl hmem
      · exact Or.inr ⟨[], f, rest, rfl, hin, hid, hnone, by simp⟩
    split at h
    · exact hstep h
    · rcases ih h with hmem | ⟨pre, f0, post, hdecomp, hin, hid, hnone, hpre⟩
      · exact hstep hmem
      · have hnone0 : amGet kv.1 acc = none := by
          cases hv : amGet kv.1 acc with
          | none => rfl
          | some v =>
            rw [amGet_mergeParsed_of_some hv] at hnone
            exact absurd hnone (by simp)
        have hf : ∀ t ∈ Server.parseJsonlSessions now f.lines, t.id ≠ kv.1 := by
          intro t ht hteq
          have := @isSome_amGet_mergeParsed_of_mem
            (Server.parseJsonlSessions now f.lines) acc t ht
          rw [hteq, hnone] at this
          exact absurd this (by simp)
        refine Or.inr ⟨f :: pre, f0, post, by rw [hdecomp]; rfl, hin, hid, hnone0, ?_⟩
        intro g hg
        rcases List.mem_cons.mp hg with rfl | hg
        · exact hf
        · exact hpre g hg

/-- The well-formedness invariant of the accumulated session map: keys are
distinct and each record is stored under its own id. -/
def GoodMap (m : List (String × Server.SessionInfo)) : Prop :=
  (m.map Prod.fst).Nodup ∧ ∀ kv ∈ m, kv.2.id = kv.1

theorem goodMap_mergeParsed {ss : List Server.SessionInfo}
    {acc : List (String × Server.SessionInfo)} (h : GoodMap acc) :
    GoodMap (Server.mergeParsed ss acc) := by
  induction ss generalizing acc with
  | nil => exact h
  | cons s rest ih =>
    unfold Server.mergeParsed
    rw [List.foldl_cons]
    by_cases hs : (amGet s.id acc).isSome
    · rw [if_pos hs]
      exact ih h
    · rw [if_neg hs]
      apply ih
      have hnone : amGet s.id acc = none := by
        cases hv : amGet s.id acc with
        | none => rfl
        | some v => rw [hv] at hs; exact absurd rfl hs
      rw [amSet_of_get_none s hnone]
      constructor
      · rw [List.map_append]
        simp only [List.map_cons, List.map_nil]
        rw [List.nodup_append]
        refine ⟨h.1, List.nodup_singleton _, ?_⟩
        intro a ha hb
        rcases List.mem_singleton.mp hb with rfl
        exact (amGet_eq_none_iff.mp hnone) ha
      · intro kv hkv
        rcases List.mem_append.mp hkv with hkv | hkv
        · exact h.2 kv hkv
        · rcases List.mem_singleton.mp hkv with rfl
          rfl

theorem goodMap_loop {now : Int} {limit offset totalFiles : Nat} :
    ∀ {fs : List Server.JsonlFile} {acc : List (String × Server.SessionInfo)} {pc : Nat},
    GoodMap acc →
    GoodMap (Server.mergeSessionsLoop now limit offset totalFiles fs acc pc) := by
  intro fs
  induction fs with
  | nil => intro acc pc h; exact h
  | cons f rest ih =>
    intro acc pc h
    rw [Server.mergeSessionsLoop]
    split
    · exact goodMap_mergeParsed h
    · exact ih (goodMap_mergeParsed h)

/-- C6: for every directory, limit and offset, the page returned by
`getSessions` holds pairwise-distinct session identities, is sorted by
last activity descending, and each returned record is exactly the record
parsed from the first file — in most-recently-modified-first order — whose
log mentions its identity (no earlier scanned file mentions it). -/
theorem getSessions_spec (now : Int) (files : List Server.JsonlFile)
    (limit offset : Nat) :
    (((Server.getSessions now (some files) limit offset).sessions.map
        (fun s => s.id)).Nodup) ∧
    (Server.getSessions now (some files) limit offset).sessions.Pairwise
      (fun a b => b.lastActivity ≤ a.lastActivity) ∧
    (∀ s ∈ (Server.getSessions now (some files) limit offset).sessions,
      ∃ pre f post, Server.sortFilesByMtime files = pre ++ f :: post ∧
        s ∈ Server.parseJsonlSessions now f.lines ∧
        ∀ g ∈ pre, ∀ t ∈ Server.parseJsonlSessions now g.lines, t.id ≠ s.id) := by
  by_cases hempty : (files.filter (fun f => Server.isJsonlName f.name)).isEmpty
  · have hres : Server.getSessions now (some files) limit offset =
        { sessions := [], hasMore := false, total := 0 } := by
      unfold Server.getSessions
      simp only []
      rw [if_pos hempty]
    rw [hres]
    refine ⟨by simp, by simp, by simp⟩
  · have hres : (Server.getSessions now (some files) limit offset).sessions =
        ((sortBy (fun a b => decide (b.lastActivity ≤ a.lastActivity))
          ((Server.mergeSessionsLoop now limit offset
            (Server.sortFilesByMtime files).length
            (Server.sortFilesByMtime files) [] 0).map Prod.snd)).drop offset).take limit := by
      unfold Server.getSessions
      simp only []
      rw [if_neg hempty]
    set merged := Server.mergeSessionsLoop now limit offset
      (Server.sortFilesByMtime files).length (Server.sortFilesByMtime files) [] 0 with hmerged
    have hgood : GoodMap merged := goodMap_loop ⟨List.nodup_nil, by simp⟩
    have hperm := sortBy_perm (fun (a b : Server.SessionInfo) =>
      decide (b.lastActivity ≤ a.lastActivity)) (merged.map Prod.snd)
    have hsub : ((sortBy (fun a b => decide (b.lastActivity ≤ a.lastActivity))
          (merged.map Prod.snd)).drop offset).take limit |>.Sublist
        (sortBy (fun a b => decide (b.lastActivity ≤ a.lastActivity))
          (merged.map Prod.snd)) :=
      (List.take_sublist _ _).trans (List.drop_sublist _ _)
    refine ⟨?_, ?_, ?_⟩
    · rw [hres]
      have hids : (merged.map Prod.snd).map (fun s => s.id) = merged.map Prod.fst := by
        rw [List.map_map]
        apply List.map_congr_left
        intro kv hkv
        exact hgood.2 kv hkv
      have hnd : ((merged.map Prod.snd).map (fun s => s.id)).Nodup := by
        rw [hids]; exact hgood.1
      have hnd2 : ((sortBy (fun a b => decide (b.lastActivity ≤ a.lastActivity))
          (merged.map Prod.snd)).map (fun s => s.id)).Nodup :=
        ((hperm.map (fun s => s.id)).nodup_iff).mpr hnd
      exact hnd2.sublist (hsub.map _)
    · rw [hres]
      have hp := @sortBy_pairwise Server.SessionInfo
        (fun a b => decide (b.lastActivity ≤ a.lastActivity))
        (fun a b c ha hb => decide_eq_true
          (le_trans (of_decide_eq_true hb) (of_decide_eq_true ha)))
        (fun a b => by
          rcases le_total (b.lastActivity) (a.lastActivity) with h | h
          · exact Or.inl (decide_eq_true h)
          · exact Or.inr (decide_eq_true h))
        (merged.map Prod.snd)
      exact (hp.sublist hsub).imp (fun hab => of_decide_eq_true hab)
    · intro s hs
      rw [hres] at hs
      have hs2 : s ∈ merged.map Prod.snd := hperm.mem_iff.mp (hsub.mem hs)
      rcases List.mem_map.mp hs2 with ⟨kv, hkv, rfl⟩
      rcases mem_mergeSessionsLoop hkv with hmem | ⟨pre, f, post, hdecomp, hin, hid, _, hpre⟩
      · exact absurd hmem (by simp)
      · exact ⟨pre, f, post, hdecomp, hin, fun g hg t ht => by
          rw [hid]; exact hpre g hg t ht⟩

/-- Witness for C6 at a concrete one-file directory. -/
theorem getSessions_spec_witness :
    Fixtures.oneSessionInfo ∈
      (Server.getSessions 0 (some [Fixtures.oneSessionFile]) 5 0).sessions ∧
    ∃ pre f post,
      Server.sortFilesByMtime [Fixtures.oneSessionFile] = pre ++ f :: post ∧
      Fixtures.oneSessionInfo ∈ Server.parseJsonlSessions 0 f.lines ∧
      ∀ g ∈ pre, ∀ t ∈ Server.parseJsonlSessions 0 g.lines,
        t.id ≠ Fixtures.oneSessionInfo.id :=
  ⟨by decide,
    (getSessions_spec 0 [Fixtures.oneSessionFile] 5 0).2.2
      Fixtures.oneSessionInfo (by decide)⟩

theorem obsOf_cons_malformed (raw : String) (rest : List Server.JsonLine) :
    Server.obsOf (Server.JsonLine.malformed raw :: rest) = Server.obsOf rest := rfl

theorem obsOf_cons_parsed_none {e : Server.LogEntry} (h : e.cwd = none)
    (rest : List Server.JsonLine) :
    Server.obsOf (Server.JsonLine.parsed e :: rest) = Server.obsOf rest := by
  simp [Server.obsOf, List.filterMap_cons, h]

theorem obsOf_cons_parsed_some {e : Server.LogEntry} {c : String} (h : e.cwd = some c)
    (rest : List Server.JsonLine) :
    Server.obsOf (Server.JsonLine.parsed e :: rest) = c :: Server.obsOf rest := by
  simp [Server.obsOf, List.filterMap_cons, h]

theorem scanCwdEntry_of_none {st : Server.CwdScan} {e : Server.LogEntry}
    (h : e.cwd = none) : Server.scanCwdEntry st e = st := by
  unfold Server.scanCwdEntry
  rw [h]

theorem scanCwdEntry_counts {st : Server.CwdScan} {e : Server.LogEntry} {c : String}
    (h : e.cwd = some c) :
    (Server.scanCwdEntry st e).counts
      = amSet c ((amGet c st.counts).getD 0 + 1) st.counts := by
  unfold Server.scanCwdEntry
  rw [h]
  simp only []
  split <;> rfl

theorem keys_amSet {β : Type} (k : String) (v : β) (m : List (String × β)) :
    (amSet k v m).map Prod.fst =
      if k ∈ m.map Prod.fst then m.map Prod.fst else m.map Prod.fst ++ [k] := by
  induction m with
  | nil => simp [amSet]
  | cons kv rest ih =>
    obtain ⟨k0, v0⟩ := kv
    by_cases h : k0 = k
    · subst h
      simp [amSet]
    · simp only [amSet, if_neg h, List.map_cons, List.mem_cons]
      rw [ih]
      by_cases hm : k ∈ rest.map Prod.fst
      · rw [if_pos hm, if_pos (Or.inr hm)]
      · rw [if_neg hm, if_neg (by rintro (he | hm2); exact h he.symm; exact hm hm2)]
        rfl

theorem distinctFirstAux_cons (seen : List String) (x : String) (l : List String) :
    Server.distinctFirstAux seen (x :: l)
      = if x ∈ seen then Server.distinctFirstAux seen l
        else x :: Server.distinctFirstAux (x :: seen) l := rfl

theorem distinctFirstAux_congr {s1 s2 : List String} (h : ∀ x, x ∈ s1 ↔ x ∈ s2) :
    ∀ l, Server.distinctFirstAux s1 l = Server.distinctFirstAux s2 l := by
  intro l
  induction l generalizing s1 s2 with
  | nil => rfl
  | cons x rest ih =>
    rw [distinctFirstAux_cons, distinctFirstAux_cons]
    by_cases hx : x ∈ s1
    · rw [if_pos hx, if_pos ((h x).mp hx)]
      exact ih h
    · rw [if_neg hx, if_neg (fun hh => hx ((h x).mpr hh))]
      exact congrArg (List.cons x)
        (ih (fun y => by rw [List.mem_cons, List.mem_cons]; exact or_congr Iff.rfl (h y)))

theorem scanFold_val (lines : List Server.JsonLine) :
    ∀ (st : Server.CwdScan) (c : String),
    (amGet c (lines.foldl Server.scanStep st).counts).getD 0
      = (amGet c st.counts).getD 0 + (Server.obsOf lines).count c := by
  induction lines with
  | nil => intro st c; simp [Server.obsOf]
  | cons l rest ih =>
    intro st c
    rw [List.foldl_cons]
    cases l with
    | malformed raw =>
      rw [show Server.scanStep st (Server.JsonLine.malformed raw) = st from rfl,
        obsOf_cons_malformed, ih]
    | parsed e =>
      rw [show Server.scanStep st (Server.JsonLine.parsed e)
        = Server.scanCwdEntry st e from rfl]
      cases hc : e.cwd with
      | none => rw [scanCwdEntry_of_none hc, obsOf_cons_parsed_none hc, ih]
      | some c2 =>
        rw [ih, scanCwdEntry_counts hc, obsOf_cons_parsed_some hc, List.count_cons]
        by_cases hcc : c2 = c
        · subst hcc
          rw [amGet_amSet_self]
          simp only [Option.getD_some, beq_self_eq_true, if_true]
          omega
        · rw [amGet_amSet_ne (fun hh => hcc hh.symm)]
          have : (c2 == c) = false := by simpa using hcc
          rw [this]
          simp

theorem scanFold_keys (lines : List Server.JsonLine) :
    ∀ (st : Server.CwdScan),
    ((lines.foldl Server.scanStep st).counts.map Prod.fst)
      = st.counts.map Prod.fst ++
        Server.distinctFirstAux (st.counts.map Prod.fst) (Server.obsOf lines) := by
  induction lines with
  | nil => intro st; simp [Server.obsOf, Server.distinctFirstAux]
  | cons l rest ih =>
    intro st
    rw [List.foldl_cons]
    cases l with
    | malformed raw =>
      rw [show Server.scanStep st (Server.JsonLine.malformed raw) = st from rfl,
        obsOf_cons_malformed, ih]
    | parsed e =>
      rw [show Server.scanStep st (Server.JsonLine.parsed e)
        = Server.scanCwdEntry st e from rfl]
      cases hc : e.cwd with
      | none => rw [scanCwdEntry_of_none hc, obsOf_cons_parsed_none hc, ih]
      | some c2 =>
        rw [ih, obsOf_cons_parsed_some hc, distinctFirstAux_cons]
        have hkeys : (Server.scanCwdEntry st e).counts.map Prod.fst =
            if c2 ∈ st.counts.map Prod.fst then st.counts.map Prod.fst
            else st.counts.map Prod.fst ++ [c2] := by
          rw [scanCwdEntry_counts hc, keys_amSet]
        by_cases hm : c2 ∈ st.counts.map Prod.fst
        · rw [hkeys, if_pos hm, if_pos hm]
        · rw [hkeys, if_neg hm, if_neg hm]
          rw [@distinctFirstAux_congr
            (st.counts.map Prod.fst ++ [c2])
            (c2 :: st.counts.map Prod.fst)
            (fun x => by
              rw [List.mem_append, List.mem_singleton, List.mem_cons]
              exact or_comm) (Server.obsOf rest)]
          exact (List.append_cons _ _ _).symm

theorem scanFold_nodup (lines : List Server.JsonLine) :
    ∀ (st : Server.CwdScan), (st.counts.map Prod.fst).Nodup →
    ((lines.foldl Server.scanStep st).counts.map Prod.fst).Nodup := by
  induction lines with
  | nil => intro st h; exact h
  | cons l rest ih =>
    intro st h
    rw [List.foldl_cons]
    cases l with
    | malformed raw =>
      rw [show Server.scanStep st (Server.JsonLine.malformed raw) = st from rfl]
      exact ih st h
    | parsed e =>
      rw [show Server.scanStep st (Server.JsonLine.parsed e)
        = Server.scanCwdEntry st e from rfl]
      apply ih
      cases hc : e.cwd with
      | none => rw [scanCwdEntry_of_none hc]; exact h
      | some c2 =>
        rw [scanCwdEntry_counts hc, keys_amSet]
        by_cases hm : c2 ∈ st.counts.map Prod.fst
        · rw [if_pos hm]; exact h
        · rw [if_neg hm]
          rw [List.nodup_append]
          refine ⟨h, List.nodup_singleton _, ?_⟩
          intro a ha hb
          rcases List.mem_singleton.mp hb with rfl
          exact hm ha

theorem amGet_of_mem_nodup {β : Type} {m : List (String × β)} {k : String} {v : β}
    (hnd : (m.map Prod.fst).Nodup) (h : (k, v) ∈ m) : amGet k m = some v := by
  induction m with
  | nil => exact absurd h (by simp)
  | cons kv rest ih =>
    obtain ⟨k0, v0⟩ := kv
    rcases List.mem_cons.mp h with heq | hmem
    · cases heq
      simp [amGet]
    · have hk : k0 ≠ k := by
        rintro rfl
        exact (List.nodup_cons.mp hnd).1
          (List.mem_map.mpr ⟨(k0, v), hmem, rfl⟩)
      simp only [amGet, if_neg hk]
      exact ih (List.nodup_cons.mp hnd).2 hmem

theorem map_snd_eq_keys_val {m : List (String × Nat)}
    (hnd : (m.map Prod.fst).Nodup) :
    m.map Prod.snd = (m.map Prod.fst).map (fun k => (amGet k m).getD 0) := by
  induction m with
  | nil => rfl
  | cons kv rest ih =>
    obtain ⟨k0, v0⟩ := kv
    simp only [List.map_cons]
    congr 1
    · simp [amGet]
    · rw [ih (List.nodup_cons.mp hnd).2]
      apply List.map_congr_left
      intro k hk
      have hkne : k0 ≠ k := by
        rintro rfl
        exact (List.nodup_cons.mp hnd).1 hk
      simp [amGet, if_neg hkne]

theorem firstWithCount_keys_pairs {m : List (String × Nat)}
    (hnd : (m.map Prod.fst).Nodup) (t : Nat) :
    Server.firstWithCount t m
      = Server.firstWithCount t
          ((m.map Prod.fst).map (fun k => (k, (amGet k m).getD 0))) := by
  induction m with
  | nil => rfl
  | cons kv rest ih =>
    obtain ⟨k0, v0⟩ := kv
    simp only [List.map_cons]
    rw [Server.firstWithCount, Server.firstWithCount]
    have hv : ((amGet k0 ((k0, v0) :: rest)).getD 0) = v0 := by simp [amGet]
    rw [hv]
    by_cases ht : v0 = t
    · rw [if_pos ht, if_pos ht]
    · rw [if_neg ht, if_neg ht]
      rw [ih (List.nodup_cons.mp hnd).2]
      congr 1
      apply List.map_congr_left
      intro k hk
      have hkne : k0 ≠ k := by
        rintro rfl
        exact (List.nodup_cons.mp hnd).1 hk
      simp [amGet, if_neg hkne]

theorem le_listMax_of_mem {l : List Nat} {x : Nat} (h : x ∈ l) :
    x ≤ Server.listMax l := by
  induction l with
  | nil => exact absurd h (by simp)
  | cons n rest ih =>
    rw [Server.listMax]
    rcases List.mem_cons.mp h with rfl | hmem
    · exact Nat.le_max_left _ _
    · exact le_trans (ih hmem) (Nat.le_max_right _ _)

theorem listMax_mem {l : List Nat} (h : l ≠ []) : Server.listMax l ∈ l := by
  induction l with
  | nil => exact absurd rfl h
  | cons n rest ih =>
    rw [Server.listMax]
    by_cases hr : rest = []
    · subst hr
      simp [Server.listMax]
    · rcases Nat.le_total (Server.listMax rest) n with hle | hle
      · rw [Nat.max_eq_left hle]
        exact List.mem_cons_self _ _
      · rw [Nat.max_eq_right hle]
        exact List.mem_cons_of_mem _ (ih hr)

theorem firstWithCount_isSome {t : Nat} {m : List (String × Nat)}
    (h : ∃ p ∈ m, p.2 = t) : ∃ c, Server.firstWithCount t m = some c := by
  induction m with
  | nil => rcases h with ⟨p, hp, _⟩; exact absurd hp (by simp)
  | cons kv rest ih =>
    obtain ⟨k0, v0⟩ := kv
    rw [Server.firstWithCount]
    by_cases ht : v0 = t
    · rw [if_pos ht]
      exact ⟨k0, rfl⟩
    · rw [if_neg ht]
      rcases h with ⟨p, hp, hpt⟩
      rcases List.mem_cons.mp hp with rfl | hmem
      · exact absurd hpt ht
      · exact ih ⟨p, hmem, hpt⟩

theorem mem_of_mem_distinctFirstAux {x : String} :
    ∀ {seen l : List String}, x ∈ Server.distinctFirstAux seen l → x ∈ l := by
  intro seen l
  induction l generalizing seen with
  | nil => intro h; exact absurd h (by simp [Server.distinctFirstAux])
  | cons y rest ih =>
    intro h
    rw [Server.distinctFirstAux] at h
    by_cases hy : y ∈ seen
    · rw [if_pos hy] at h
      exact List.mem_cons_of_mem _ (ih h)
    · rw [if_neg hy] at h
      rcases List.mem_cons.mp h with rfl | hmem
      · exact List.mem_cons_self _ _
      · exact List.mem_cons_of_mem _ (ih hmem)

theorem selectCwd_multi (pn : String) (scan : Server.CwdScan) (a b : String × Nat)
    (t : List (String × Nat)) (hc : scan.counts = a :: b :: t) :
    Server.selectCwd pn scan =
      (let mostRecentCount := match scan.latestCwd with
          | some c => (amGet c scan.counts).getD 0
          | none => 0
       let maxCount := Server.listMax (scan.counts.map Prod.snd)
       match (if 4 * mostRecentCount ≥ maxCount then scan.latestCwd
             else Server.firstWithCount maxCount scan.counts) with
       | some c => c
       | none =>
         match scan.latestCwd with
         | some c => c
         | none => String.mk (Server.smartDecodeProjectName pn.data)) := by
  obtain ⟨cs, lt, lc⟩ := scan
  simp only at hc
  subst hc
  rfl

/-- C7 (amended): with more than one distinct observed cwd, the extracted
path is the most recently observed cwd whenever its occurrence count is at
least a quarter of the count of the most frequently occurring cwd, and
otherwise the first cwd, in first-observed order, attaining the maximal
count. -/
theorem extract_cwd_selection (projectName : String) (files : List Server.JsonlFile)
    (h2 : 2 ≤ (Server.distinctFirst (Server.observedCwds files)).length) :
    let obs := Server.observedCwds files
    let latest := (Server.scanCwd files).latestCwd
    let latestCount := (latest.map (fun c => obs.count c)).getD 0
    let maxCount := Server.listMax ((Server.distinctFirst obs).map (fun c => obs.count c))
    (maxCount ≤ 4 * latestCount →
      ∃ c, latest = some c ∧
        Server.extractProjectDirectory projectName none (some files) = c) ∧
    (4 * latestCount < maxCount →
      ∃ c, Server.firstWithCount maxCount
          ((Server.distinctFirst obs).map (fun x => (x, obs.count x))) = some c ∧
        Server.extractProjectDirectory projectName none (some files) = c) := by
  simp only []
  have hobs_ne : Server.observedCwds files ≠ [] := by
    intro h0
    rw [h0] at h2
    simp [Server.distinctFirst, Server.distinctFirstAux] at h2
  have hfilter : (files.filter (fun f => Server.isJsonlName f.name)).isEmpty = false := by
    cases hIE : (files.filter (fun f => Server.isJsonlName f.name)).isEmpty with
    | false => rfl
    | true =>
      exfalso
      apply hobs_ne
      unfold Server.observedCwds
      rw [List.isEmpty_iff.mp hIE]
      rfl
  have hval : ∀ c, (amGet c (Server.scanCwd files).counts).getD 0
      = (Server.observedCwds files).count c := by
    intro c
    have h := scanFold_val
      (((files.filter (fun f => Server.isJsonlName f.name)).map (fun f => f.lines)).flatten)
      ⟨[], 0, none⟩ c
    simpa [Server.scanCwd, Server.observedCwds, amGet] using h
  have hkeys : (Server.scanCwd files).counts.map Prod.fst
      = Server.distinctFirst (Server.observedCwds files) := by
    have h := scanFold_keys
      (((files.filter (fun f => Server.isJsonlName f.name)).map (fun f => f.lines)).flatten)
      ⟨[], 0, none⟩
    simpa [Server.scanCwd, Server.observedCwds, Server.distinctFirst] using h
  have hnodup : ((Server.scanCwd files).counts.map Prod.fst).Nodup := by
    apply scanFold_nodup
    simp
  have hmax_eq : Server.listMax ((Server.scanCwd files).counts.map Prod.snd)
      = Server.listMax ((Server.distinctFirst (Server.observedCwds files)).map
          (fun c => (Server.observedCwds files).count c)) := by
    rw [map_snd_eq_keys_val hnodup, hkeys]
    congr 1
    apply List.map_congr_left
    intro k _
    exact hval k
  have hmrc_eq : (match (Server.scanCwd files).latestCwd with
      | some c => (amGet c (Server.scanCwd files).counts).getD 0
      | none => 0)
      = (((Server.scanCwd files).latestCwd).map
          (fun c => (Server.observedCwds files).count c)).getD 0 := by
    cases hL : (Server.scanCwd files).latestCwd with
    | none => rfl
    | some c =>
      simp only [Option.map_some, Option.getD_some]
      exact hval c
  have hlen : 2 ≤ (Server.scanCwd files).counts.length := by
    have := congrArg List.length hkeys
    rw [List.length_map] at this
    omega
  have hex : Server.extractProjectDirectory projectName none (some files)
      = Server.selectCwd projectName (Server.scanCwd files) := by
    unfold Server.extractProjectDirectory
    simp only []
    rw [hfilter]
    simp
  have hmax1 : 1 ≤ Server.listMax ((Server.distinctFirst (Server.observedCwds files)).map
      (fun c => (Server.observedCwds files).count c)) := by
    have hne : Server.distinctFirst (Server.observedCwds files) ≠ [] := by
      intro h0
      rw [h0] at h2
      simp at h2
    obtain ⟨c0, t0, hct⟩ := List.exists_cons_of_ne_nil hne
    have hc0 : c0 ∈ Server.distinctFirst (Server.observedCwds files) := by
      rw [hct]; exact List.mem_cons_self _ _
    have hc0obs : c0 ∈ Server.observedCwds files := mem_of_mem_distinctFirstAux hc0
    have hcount : 1 ≤ (Server.observedCwds files).count c0 := by
      have := List.count_pos_iff.mpr hc0obs
      omega
    have hle : (Server.observedCwds files).count c0
        ≤ Server.listMax ((Server.distinctFirst (Server.observedCwds files)).map
            (fun c => (Server.observedCwds files).count c)) :=
      le_listMax_of_mem (List.mem_map.mpr ⟨c0, hc0, rfl⟩)
    omega
  obtain ⟨a, b, t, hC⟩ : ∃ a b t, (Server.scanCwd files).counts = a :: b :: t := by
    cases hC0 : (Server.scanCwd files).counts with
    | nil => rw [hC0] at hlen; simp at hlen
    | cons a t1 =>
      cases t1 with
      | nil => rw [hC0] at hlen; simp at hlen
      | cons b t2 => exact ⟨a, b, t2, rfl⟩
  have hsel := selectCwd_multi projectName (Server.scanCwd files) a b t hC
  constructor
  · intro hge
    cases hL : (Server.scanCwd files).latestCwd with
    | none =>
      exfalso
      rw [hL] at hge
      simp at hge
      omega
    | some c =>
      refine ⟨c, rfl, ?_⟩
      rw [hex, hsel]
      simp only []
      rw [hL]
      simp only []
      simp only [hval, hmax_eq]
      rw [hL] at hge
      simp at hge
      rw [if_pos hge]
  · intro hlt
    have hmem : Server.listMax ((Server.scanCwd files).counts.map Prod.snd)
        ∈ (Server.scanCwd files).counts.map Prod.snd := by
      apply listMax_mem
      rw [hC]
      simp
    rcases List.mem_map.mp hmem with ⟨p, hp, hpt⟩
    obtain ⟨c, hfc⟩ := @firstWithCount_isSome
      (Server.listMax ((Server.scanCwd files).counts.map Prod.snd)) _ ⟨p, hp, hpt⟩
    have hpairs : Server.firstWithCount
        (Server.listMax ((Server.scanCwd files).counts.map Prod.snd))
        ((Server.scanCwd files).counts)
        = Server.firstWithCount
          (Server.listMax ((Server.distinctFirst (Server.observedCwds files)).map
            (fun c => (Server.observedCwds files).count c)))
          ((Server.distinctFirst (Server.observedCwds files)).map
            (fun x => (x, (Server.observedCwds files).count x))) := by
      rw [firstWithCount_keys_pairs hnodup, hkeys, hmax_eq]
      congr 1
      apply List.map_congr_left
      intro k _
      rw [hval k]
    have hfc2 : Server.firstWithCount
        (Server.listMax ((Server.distinctFirst (Server.observedCwds files)).map
          (fun c => (Server.observedCwds files).count c)))
        ((Server.scanCwd files).counts) = some c := by
      rw [← hmax_eq]
      exact hfc
    refine ⟨c, ?_, ?_⟩
    · rw [← hpairs, hfc]
    · rw [hex, hsel]
      simp only []
      rw [hmrc_eq]
      simp only [hmax_eq]
      rw [if_neg (by omega)]
      rw [hfc2]

/-- Witness for the amended C7 theorem: with history `/a ×4` then `/b`
(most recent), the most-recent count 1 is exactly a quarter of the maximal
count 4, so the code selects `/b`. -/
theorem extract_cwd_selection_witness :
    ∃ c, (Server.scanCwd [Fixtures.cwdFile]).latestCwd = some c ∧
      Server.extractProjectDirectory "-x" none (some [Fixtures.cwdFile]) = c :=
  (extract_cwd_selection "-x" [Fixtures.cwdFile] (by decide)).1 (by decide)

end ClaudeCodeUI
